import Mathlib

/-!
Verification of the unrolled linked list container
(src/lib/unrolled_list.h).

The container is a doubly linked chain of fixed-capacity nodes.  Each
node owns `NodeMaxSize` raw slots; slots `[0, count)` hold live elements.
We shallowly embed the container at the slot level:

* a slot is an `Option α` (`some a` = live element, `none` = raw memory);
* a node is its slot array together with its `count` field;
* the chain is the list of nodes reachable from `head_` via `next`, in
  order, and the container also stores its element count `sz` (the
  `size_` field of the source).

Element construction can throw (the allocator's `construct` runs a copy
constructor of the element type).  We model this with a fuel counter:
every copy construction consumes one unit of fuel, and a construction
attempted with no fuel left throws.  An operation that throws returns
`Except.error s` where `s` is the container state left behind at the
moment the exception escapes; a completed operation returns
`Except.ok (state, result, remaining fuel)`.  Element destruction and
move construction never throw (a documented precondition of the
source), so `erase`, `pop_back`, `pop_front` and the shift loops they
run are modelled as pure functions.

A cursor (iterator) is `Option (Nat × Nat)`: `some (k, i)` is the
iterator whose `node_` points at the `k`-th node of the chain and whose
`index_` is `i`; `none` is the end sentinel (`node_ == nullptr`,
`index_ == 0`).

For one claim (the `head_ == tail_ == null` invariant) the identity of
the `head_` and `tail_` pointers themselves matters, so a second,
pointer-level embedding of `erase` is given at the end of the
development: nodes live in a heap keyed by addresses, and `head_`,
`tail_` are optional addresses, exactly as in the source.
-/

deriving instance DecidableEq for Except

namespace USpec

/-- Live elements seen when dereferencing a run of slots in order:
holes (raw slots) yield nothing. -/
def optEls {α : Type} : List (Option α) → List α
  | [] => []
  | none :: t => optEls t
  | some a :: t => a :: optEls t

/-- One node of the chain: the slot array (`storage`) and the `count`
field.  `prev`/`next` links are represented by the node's position in
the chain list. -/
structure SNode (α : Type) where
  slots : List (Option α)
  cnt : Nat
deriving DecidableEq, Repr

/-- The container state seen from `head_`: the chain of nodes in `next`
order, and the stored `size_` field. -/
structure ULs (α : Type) where
  nodes : List (SNode α)
  sz : Nat
deriving DecidableEq, Repr

/-- Elements of a node visited by an iterator crossing it: slots
`[0, count)`, dereferenced. -/
def nodeEls {α : Type} (nd : SNode α) : List α :=
  optEls (nd.slots.take nd.cnt)

/-- Elements of a chain of nodes in iteration order. -/
def chainEls {α : Type} : List (SNode α) → List α
  | [] => []
  | nd :: t => nodeEls nd ++ chainEls t

/-- The element sequence observed iterating the container from
`begin()` to `end()`. -/
def toEls {α : Type} (s : ULs α) : List α :=
  chainEls s.nodes

/-- Sum of the `count` fields over a chain. -/
def cntSum {α : Type} : List (SNode α) → Nat
  | [] => 0
  | nd :: t => nd.cnt + cntSum t

/-- A node as the raw placement machinery keeps it: `count ≤ C` live
elements packed contiguously from slot 0, the remaining slots raw.
This is the node-level representation invariant. -/
def canonical {α : Type} (C : Nat) (nd : SNode α) : Prop :=
  nd.slots = (nodeEls nd).map some ++ List.replicate (C - nd.cnt) none ∧
    nd.cnt ≤ C ∧ nd.slots.length = C

instance {α : Type} [DecidableEq α] (C : Nat) (nd : SNode α) :
    Decidable (canonical C nd) := by
  unfold canonical; infer_instance

/-- Representation invariant of a whole container: every chain node is
canonical and non-empty, and the stored `size_` is the sum of the
counts. -/
def WF {α : Type} (C : Nat) (s : ULs α) : Prop :=
  (∀ nd ∈ s.nodes, canonical C nd ∧ 1 ≤ nd.cnt) ∧ s.sz = cntSum s.nodes

instance {α : Type} [DecidableEq α] (C : Nat) (s : ULs α) :
    Decidable (WF C s) := by
  unfold WF; infer_instance

/-- Insertion of `a` before position `i` of `l` (the effect the spec
ascribes to inserting at a cursor of logical position `i`). -/
def insertAt {α : Type} (i : Nat) (a : α) (l : List α) : List α :=
  l.take i ++ a :: l.drop i

/-- Number of elements in the chain strictly before node `k` (the
logical offset of slot 0 of node `k`). -/
def cntsBefore {α : Type} (s : ULs α) (k : Nat) : Nat :=
  cntSum (s.nodes.take k)

/-- Logical position denoted by a cursor: `none` (the end sentinel)
denotes no element. -/
def curPos {α : Type} (s : ULs α) : Option (Nat × Nat) → Option Nat
  | none => none
  | some (k, i) => some (cntsBefore s k + i)

/-- A cursor that may be dereferenced: either the end sentinel or a
node/slot pair in range. -/
def validCur {α : Type} (s : ULs α) : Option (Nat × Nat) → Prop
  | none => True
  | some (k, i) => k < s.nodes.length ∧ i < (s.nodes.getD k ⟨[], 0⟩).cnt

/-- The rightward shift-and-construct loop
`for (i = idx + n; i > idx; --i) { construct(slot i, slot (i-1)); destroy(slot (i-1)); }`
used by `insert` to open a gap at `idx`.  Each copy construction
consumes one unit of fuel; with no fuel the copy throws and the loop
aborts with the slots as already mutated (the source has no rollback
here). -/
def shiftUp {α : Type} (idx : Nat) :
    Nat → List (Option α) → Nat → Except (List (Option α)) (List (Option α) × Nat)
  | 0, slots, fuel => .ok (slots, fuel)
  | _ + 1, slots, 0 => .error slots
  | n + 1, slots, fuel + 1 =>
      let j := idx + n + 1
      shiftUp idx n ((slots.set j (slots.getD (j - 1) none)).set (j - 1) none) fuel

/-- The leftward move-and-destroy loop
`for (j = idx + 1; j ≤ idx + n; ++j) { construct(slot (j-1), move(slot j)); destroy(slot j); }`
used by `erase` and `pop_front` to close the gap at `idx`.  Move
construction and destruction never throw (documented precondition), so
the loop is pure. -/
def shiftDown {α : Type} : Nat → Nat → List (Option α) → List (Option α)
  | _, 0, slots => slots
  | i, n + 1, slots =>
      shiftDown (i + 1) n ((slots.set i (slots.getD (i + 1) none)).set (i + 1) none)

/-- The half-move loop of the split path of `insert`:
`for (i = half; i < half + n; ++i) { construct(dst (i - half), src i); destroy(src i); }`.
Copies consume fuel; on a throw the loop aborts with both slot arrays
as already mutated. -/
def moveHalf {α : Type} (half : Nat) :
    Nat → Nat → List (Option α) → List (Option α) → Nat →
      Except (List (Option α) × List (Option α)) ((List (Option α) × List (Option α)) × Nat)
  | _, 0, src, dst, fuel => .ok ((src, dst), fuel)
  | _, _ + 1, src, dst, 0 => .error (src, dst)
  | i, n + 1, src, dst, fuel + 1 =>
      moveHalf half (i + 1) n (src.set i none)
        (dst.set (i - half) (src.getD i none)) fuel

/-- Translation of `unrolled_list::push_back` (src/lib/unrolled_list.h,
lines 444-478).  If `tail_` is null a node is created and linked as
both head and tail before anything is constructed; then the value is
copy-constructed either into the tail's next free slot or into a fresh
node appended to the chain.  The catch block of the first branch
destroys the slot the construction failed on (a no-op on a raw slot);
the catch block of the second destroys the fresh unlinked node. -/
def push_back {α : Type} (C : Nat) (s : ULs α) (v : α) (fuel : Nat) :
    Except (ULs α) (ULs α × Nat) :=
  let s0 : ULs α :=
    if s.nodes.isEmpty then ⟨[⟨List.replicate C none, 0⟩], s.sz⟩ else s
  let k := s0.nodes.length - 1
  let nd := s0.nodes.getD k ⟨[], 0⟩
  if nd.cnt < C then
    match fuel with
    | 0 => .error ⟨s0.nodes.set k ⟨nd.slots.set nd.cnt none, nd.cnt⟩, s0.sz⟩
    | f + 1 =>
        .ok (⟨s0.nodes.set k ⟨nd.slots.set nd.cnt (some v), nd.cnt + 1⟩, s0.sz + 1⟩, f)
  else
    match fuel with
    | 0 => .error s0
    | f + 1 =>
        .ok (⟨s0.nodes ++ [⟨(List.replicate C none).set 0 (some v), 1⟩], s0.sz + 1⟩, f)

/-- Translation of the single-element
`unrolled_list::insert(const_iterator, const T&)` (src/lib/unrolled_list.h,
lines 574-644).  A null cursor delegates to `push_back` and returns an
iterator to the new tail slot.  Otherwise, when the target node has
room, the in-place shift-and-construct runs with no try/catch: a throw
escapes with the partial shift left in place.  When the node is full,
the upper half `[C/2, C)` is moved into a fresh node (a throw there
escapes with the source node partially destroyed and the fresh node
unlinked and invisible), the fresh node is spliced in after the target
(`tail_` updated when needed), and the in-place shift-and-construct
runs on whichever half holds the insertion point, again with no
rollback.  `size_` is incremented once at the end. -/
def insert {α : Type} (C : Nat) (s : ULs α) (cur : Option (Nat × Nat)) (v : α)
    (fuel : Nat) : Except (ULs α) (ULs α × (Nat × Nat) × Nat) :=
  match cur with
  | none =>
      match push_back C s v fuel with
      | .error e => .error e
      | .ok (s', f) =>
          .ok (s', (s'.nodes.length - 1, (s'.nodes.getD (s'.nodes.length - 1) ⟨[], 0⟩).cnt - 1), f)
  | some (k, idx) =>
      let nd := s.nodes.getD k ⟨[], 0⟩
      if nd.cnt < C then
        match shiftUp idx (nd.cnt - idx) nd.slots fuel with
        | .error sl => .error ⟨s.nodes.set k ⟨sl, nd.cnt⟩, s.sz⟩
        | .ok (sl, 0) => .error ⟨s.nodes.set k ⟨sl, nd.cnt⟩, s.sz⟩
        | .ok (sl, f + 1) =>
            .ok (⟨s.nodes.set k ⟨sl.set idx (some v), nd.cnt + 1⟩, s.sz + 1⟩, (k, idx), f)
      else
        let half := C / 2
        match moveHalf half half (C - half) nd.slots (List.replicate C none) fuel with
        | .error (src, _) => .error ⟨s.nodes.set k ⟨src, nd.cnt⟩, s.sz⟩
        | .ok ((src, dst), f) =>
            if half < idx then
              let ni := idx - half
              match shiftUp ni ((C - half) - ni) dst f with
              | .error sl =>
                  .error ⟨(s.nodes.set k ⟨src, half⟩).insertIdx (k + 1) ⟨sl, C - half⟩, s.sz⟩
              | .ok (sl, 0) =>
                  .error ⟨(s.nodes.set k ⟨src, half⟩).insertIdx (k + 1) ⟨sl, C - half⟩, s.sz⟩
              | .ok (sl, f' + 1) =>
                  .ok (⟨(s.nodes.set k ⟨src, half⟩).insertIdx (k + 1)
                          ⟨sl.set ni (some v), (C - half) + 1⟩, s.sz + 1⟩,
                        (k + 1, ni), f')
            else
              match shiftUp idx (half - idx) src f with
              | .error sl =>
                  .error ⟨(s.nodes.set k ⟨sl, half⟩).insertIdx (k + 1) ⟨dst, C - half⟩, s.sz⟩
              | .ok (sl, 0) =>
                  .error ⟨(s.nodes.set k ⟨sl, half⟩).insertIdx (k + 1) ⟨dst, C - half⟩, s.sz⟩
              | .ok (sl, f' + 1) =>
                  .ok (⟨(s.nodes.set k ⟨sl.set idx (some v), half + 1⟩).insertIdx (k + 1)
                          ⟨dst, C - half⟩, s.sz + 1⟩,
                        (k, idx), f')

/-- Loop body of the multi-element overload
`insert(const_iterator, size_type, const T&)` (src/lib/unrolled_list.h,
lines 647-654): `ret` starts as the default iterator (the end
sentinel) and each round overwrites it with the result of a
single-element insert at the same, unrefreshed cursor `cpos`. -/
def insertNLoop {α : Type} (C : Nat) (cur : Option (Nat × Nat)) (v : α) :
    Nat → ULs α → Option (Nat × Nat) → Nat →
      Except (ULs α) (ULs α × Option (Nat × Nat) × Nat)
  | 0, s, ret, fuel => .ok (s, ret, fuel)
  | n + 1, s, _, fuel =>
      match insert C s cur v fuel with
      | .error e => .error e
      | .ok (s1, it, f) => insertNLoop C cur v n s1 (some it) f

/-- Translation of `insert(const_iterator, size_type, const T&)`. -/
def insertN {α : Type} (C : Nat) (s : ULs α) (cur : Option (Nat × Nat)) (n : Nat)
    (v : α) (fuel : Nat) : Except (ULs α) (ULs α × Option (Nat × Nat) × Nat) :=
  insertNLoop C cur v n s none fuel

/-- Translation of `unrolled_list::erase(const_iterator)`
(src/lib/unrolled_list.h, lines 656-740), at the chain level (the
pointer-level translation appears below as `eraseP`).  The victim slot
is destroyed, the following slots of the node are moved one slot left,
`count` and `size_` are decremented, an emptied node is unlinked and
destroyed (interior, head and tail cases in the order of the source),
and the returned iterator follows the source's case analysis. -/
def erase {α : Type} (s : ULs α) (cur : Option (Nat × Nat)) :
    ULs α × Option (Nat × Nat) :=
  match cur with
  | none => (s, none)
  | some (k, idx) =>
      let nd := s.nodes.getD k ⟨[], 0⟩
      let sl := shiftDown idx (nd.cnt - 1 - idx) (nd.slots.set idx none)
      let cnt' := nd.cnt - 1
      let nodes1 := s.nodes.set k ⟨sl, cnt'⟩
      let sz' := s.sz - 1
      if cnt' = 0 ∧ ¬k = 0 ∧ ¬k = s.nodes.length - 1 then
        let nodes2 := nodes1.eraseIdx k
        (⟨nodes2, sz'⟩, if k < nodes2.length then some (k, 0) else none)
      else if cnt' = 0 ∧ k = 0 then
        let nodes2 := nodes1.eraseIdx 0
        (⟨nodes2, sz'⟩, if 0 < nodes2.length then some (0, 0) else none)
      else if cnt' = 0 ∧ k = s.nodes.length - 1 then
        (⟨nodes1.eraseIdx k, sz'⟩, none)
      else if sz' = 0 then
        (⟨[], sz'⟩, none)
      else if cnt' ≤ idx then
        (⟨nodes1, sz'⟩, if k + 1 < nodes1.length then some (k + 1, 0) else none)
      else
        (⟨nodes1, sz'⟩, some (k, idx))

/-- Translation of `unrolled_list::pop_back` (src/lib/unrolled_list.h,
lines 529-547): a guarded no-op on an empty container; otherwise the
tail's last live slot is destroyed, `count` and `size_` decremented,
an emptied non-head tail node unlinked, and when `size_` reaches 0 the
remaining node is destroyed and `head_ = tail_ = null`. -/
def pop_back {α : Type} (s : ULs α) : ULs α :=
  if s.sz = 0 then s
  else
    let k := s.nodes.length - 1
    let nd := s.nodes.getD k ⟨[], 0⟩
    let cnt' := nd.cnt - 1
    let nodes1 := s.nodes.set k ⟨nd.slots.set cnt' none, cnt'⟩
    let sz' := s.sz - 1
    let nodes2 := if cnt' = 0 ∧ ¬k = 0 then nodes1.eraseIdx k else nodes1
    if sz' = 0 then ⟨[], 0⟩ else ⟨nodes2, sz'⟩

/-- Translation of `unrolled_list::pop_front` (src/lib/unrolled_list.h,
lines 549-572): a guarded no-op on an empty container; otherwise slot 0
of the head is destroyed, the remaining slots are moved one slot left,
`count` and `size_` decremented, an emptied non-tail head node
unlinked, and when `size_` reaches 0 the remaining node is destroyed
and `head_ = tail_ = null`. -/
def pop_front {α : Type} (s : ULs α) : ULs α :=
  if s.sz = 0 then s
  else
    let nd := s.nodes.getD 0 ⟨[], 0⟩
    let sl := shiftDown 0 (nd.cnt - 1) (nd.slots.set 0 none)
    let cnt' := nd.cnt - 1
    let nodes1 := s.nodes.set 0 ⟨sl, cnt'⟩
    let sz' := s.sz - 1
    let nodes2 := if cnt' = 0 ∧ ¬0 = s.nodes.length - 1 then nodes1.eraseIdx 0 else nodes1
    if sz' = 0 then ⟨[], 0⟩ else ⟨nodes2, sz'⟩

/-- The sequence of slot dereferences `*it` performed by an iterator
walking the container from `begin()` to `end()`: slots `[0, count)` of
each node in chain order, as raw slots (a hole dereferences to
nothing determinate; we record it as `none`). -/
def visited {α : Type} : List (SNode α) → List (Option α)
  | [] => []
  | nd :: t => nd.slots.take nd.cnt ++ visited t

/-- The comparison loop of `operator==`: walk `this` to `cend()`,
comparing against the other container's iterator dereferenced in
lockstep (a dereference past the other's end reads a raw slot,
recorded as `none`). -/
def eqLoop {α : Type} [DecidableEq α] : List (Option α) → List (Option α) → Bool
  | [], _ => true
  | a :: as, bs => (a = bs.headD none : Bool) && eqLoop as bs.tail

/-- Translation of `unrolled_list::operator==` (src/lib/unrolled_list.h,
lines 356-366): sizes first, then element-wise comparison by iterator
walk. -/
def ulEq {α : Type} [DecidableEq α] (s t : ULs α) : Bool :=
  if ¬s.sz = t.sz then false else eqLoop (visited s.nodes) (visited t.nodes)

/-- Translation of `unrolled_list::operator!=` (src/lib/unrolled_list.h,
lines 367-369). -/
def ulNe {α : Type} [DecidableEq α] (s t : ULs α) : Bool :=
  !ulEq s t

/-- Translation of `iterator::operator--` and
`const_iterator::operator--` (src/lib/unrolled_list.h, lines 120-132
and 190-202).  A null `node_` returns `*this` unchanged; at slot 0 the
cursor moves to `node_->prev` (becoming the end sentinel when `prev`
is null, since `index_` is only reassigned when the new node is
non-null); otherwise `index_` is decremented. -/
def dec {α : Type} (s : ULs α) : Option (Nat × Nat) → Option (Nat × Nat)
  | none => none
  | some (k, i) =>
      if i = 0 then
        if k = 0 then none
        else some (k - 1, (s.nodes.getD (k - 1) ⟨[], 0⟩).cnt - 1)
      else some (k, i - 1)

/-- A node as laid out in memory: `prev` and `next` are optional
addresses (null or the address of a neighbour), plus the `count` field
and the slot array. -/
structure PNode (α : Type) where
  prev : Option Nat
  next : Option Nat
  cnt : Nat
  slots : List (Option α)
deriving DecidableEq, Repr

/-- The container at the pointer level: the allocated nodes keyed by
address, and the `head_`, `tail_` and `size_` fields. -/
structure PC (α : Type) where
  heap : List (Nat × PNode α)
  headP : Option Nat
  tailP : Option Nat
  sizeP : Nat
deriving DecidableEq, Repr

/-- Read the node at an address (`none` for a freed or wild address). -/
def hget {α : Type} (h : List (Nat × PNode α)) (i : Nat) : Option (PNode α) :=
  (h.find? (fun p => p.1 = i)).map (fun p => p.2)

/-- Overwrite the node at an address. -/
def hset {α : Type} (h : List (Nat × PNode α)) (i : Nat) (nd : PNode α) :
    List (Nat × PNode α) :=
  h.map (fun p => if p.1 = i then (i, nd) else p)

/-- Free the node at an address (`destroy_node`). -/
def hdel {α : Type} (h : List (Nat × PNode α)) (i : Nat) : List (Nat × PNode α) :=
  h.filter (fun p => ¬p.1 = i)

/-- Pointer-level translation of `unrolled_list::erase(const_iterator)`
(src/lib/unrolled_list.h, lines 656-740), kept faithful to the source's
pointer updates.  In particular, in the `nd == head_` branch taken when
the node empties, only `head_` is moved past the destroyed node — the
source never touches `tail_` there, so when the erased node was both
head and tail, `tail_` keeps the freed address. -/
def eraseP {α : Type} (s : PC α) (cur : Option (Nat × Nat)) :
    PC α × Option (Nat × Nat) :=
  match cur with
  | none => (s, none)
  | some (nid, idx) =>
      match hget s.heap nid with
      | none => (s, none)
      | some nd =>
          let sl := shiftDown idx (nd.cnt - 1 - idx) (nd.slots.set idx none)
          let cnt' := nd.cnt - 1
          let nd2 : PNode α := ⟨nd.prev, nd.next, cnt', sl⟩
          let h1 := hset s.heap nid nd2
          let sz' := s.sizeP - 1
          if cnt' = 0 ∧ ¬s.headP = some nid ∧ ¬s.tailP = some nid then
            let h2 :=
              match nd2.prev with
              | some p =>
                  match hget h1 p with
                  | some pn => hset h1 p ⟨pn.prev, nd2.next, pn.cnt, pn.slots⟩
                  | none => h1
              | none => h1
            let h3 :=
              match nd2.next with
              | some q =>
                  match hget h2 q with
                  | some qn => hset h2 q ⟨nd2.prev, qn.next, qn.cnt, qn.slots⟩
                  | none => h2
              | none => h2
            let s' : PC α := ⟨hdel h3 nid, s.headP, s.tailP, sz'⟩
            match nd2.next with
            | some q => (s', some (q, 0))
            | none => (s', none)
          else if cnt' = 0 ∧ s.headP = some nid then
            let newHead := nd2.next
            let h2 :=
              match newHead with
              | some q =>
                  match hget h1 q with
                  | some qn => hset h1 q ⟨none, qn.next, qn.cnt, qn.slots⟩
                  | none => h1
              | none => h1
            let s' : PC α := ⟨hdel h2 nid, newHead, s.tailP, sz'⟩
            match newHead with
            | some q => (s', some (q, 0))
            | none => (s', none)
          else if cnt' = 0 ∧ s.tailP = some nid then
            let newTail := nd2.prev
            let h2 :=
              match newTail with
              | some p =>
                  match hget h1 p with
                  | some pn => hset h1 p ⟨pn.prev, none, pn.cnt, pn.slots⟩
                  | none => h1
              | none => h1
            (⟨hdel h2 nid, s.headP, newTail, sz'⟩, none)
          else if sz' = 0 then
            (⟨hdel h1 nid, none, none, sz'⟩, none)
          else if cnt' ≤ idx then
            match nd2.next with
            | some q => (⟨h1, s.headP, s.tailP, sz'⟩, some (q, 0))
            | none => (⟨h1, s.headP, s.tailP, sz'⟩, none)
          else
            (⟨h1, s.headP, s.tailP, sz'⟩, some (nid, idx))

/-! Helper lemmas about the slot and chain representations. -/

@[simp] theorem optEls_nil {α : Type} : optEls ([] : List (Option α)) = [] := rfl

@[simp] theorem optEls_cons_none {α : Type} (t : List (Option α)) :
    optEls (none :: t) = optEls t := rfl

@[simp] theorem optEls_cons_some {α : Type} (a : α) (t : List (Option α)) :
    optEls (some a :: t) = a :: optEls t := rfl

@[simp] theorem optEls_append {α : Type} (l₁ l₂ : List (Option α)) :
    optEls (l₁ ++ l₂) = optEls l₁ ++ optEls l₂ := by
  induction l₁ with
  | nil => rfl
  | cons a t ih => cases a <;> simp [ih]

@[simp] theorem optEls_map_some {α : Type} (l : List α) : optEls (l.map some) = l := by
  induction l with
  | nil => rfl
  | cons a t ih => simp [ih]

@[simp] theorem optEls_replicate_none {α : Type} (n : Nat) :
    optEls (List.replicate n (none : Option α)) = [] := by
  induction n with
  | zero => rfl
  | succ n ih => simp [List.replicate_succ, ih]

@[simp] theorem chainEls_nil {α : Type} : chainEls ([] : List (SNode α)) = [] := rfl

@[simp] theorem chainEls_cons {α : Type} (nd : SNode α) (t : List (SNode α)) :
    chainEls (nd :: t) = nodeEls nd ++ chainEls t := rfl

@[simp] theorem chainEls_append {α : Type} (l₁ l₂ : List (SNode α)) :
    chainEls (l₁ ++ l₂) = chainEls l₁ ++ chainEls l₂ := by
  induction l₁ with
  | nil => rfl
  | cons nd t ih => simp [ih]

@[simp] theorem cntSum_nil {α : Type} : cntSum ([] : List (SNode α)) = 0 := rfl

@[simp] theorem cntSum_cons {α : Type} (nd : SNode α) (t : List (SNode α)) :
    cntSum (nd :: t) = nd.cnt + cntSum t := rfl

@[simp] theorem cntSum_append {α : Type} (l₁ l₂ : List (SNode α)) :
    cntSum (l₁ ++ l₂) = cntSum l₁ + cntSum l₂ := by
  induction l₁ with
  | nil => simp
  | cons nd t ih => simp [ih, Nat.add_assoc]

theorem set_offset {β : Type} (l₁ l₂ : List β) (n : Nat) (b : β) :
    (l₁ ++ l₂).set (l₁.length + n) b = l₁ ++ l₂.set n b := by
  rw [List.set_append]
  simp

theorem getD_offset {β : Type} (l₁ l₂ : List β) (n : Nat) (d : β) :
    (l₁ ++ l₂).getD (l₁.length + n) d = l₂.getD n d := by
  rw [List.getD_append_right l₁ l₂ d _ (Nat.le_add_right _ _)]
  simp

theorem insertAt_offset {β : Type} (l₁ l₂ : List β) (n : Nat) (b : β) :
    insertAt (l₁.length + n) b (l₁ ++ l₂) = l₁ ++ insertAt n b l₂ := by
  unfold insertAt
  rw [List.take_append, List.drop_append]
  simp

theorem insertAt_append_of_le {β : Type} (l₁ l₂ : List β) (n : Nat) (b : β)
    (h : n ≤ l₁.length) :
    insertAt n b (l₁ ++ l₂) = insertAt n b l₁ ++ l₂ := by
  unfold insertAt
  rw [List.take_append_of_le_length h, List.drop_append_of_le_length h]
  simp

theorem eraseIdx_offset {β : Type} (l₁ l₂ : List β) (n : Nat) :
    (l₁ ++ l₂).eraseIdx (l₁.length + n) = l₁ ++ l₂.eraseIdx n := by
  rw [List.eraseIdx_append_of_length_le (Nat.le_add_right _ _)]
  simp

theorem eraseIdx_append_of_lt {β : Type} (l₁ l₂ : List β) (n : Nat)
    (h : n < l₁.length) :
    (l₁ ++ l₂).eraseIdx n = l₁.eraseIdx n ++ l₂ :=
  List.eraseIdx_append_of_lt_length h l₂

theorem insertAt_length_append {β : Type} (l : List β) (b : β) :
    insertAt l.length b l = l ++ [b] := by
  unfold insertAt
  simp

theorem length_insertAt {β : Type} (n : Nat) (b : β) (l : List β) (h : n ≤ l.length) :
    (insertAt n b l).length = l.length + 1 := by
  unfold insertAt
  simp [Nat.min_eq_left h]
  omega

/-- Splitting an insertion at a boundary `m` inside the list: inserting
at `n ≤ m` happens in the left part, at `n > m` in the right part. -/
theorem insertAt_split_left {β : Type} (xs : List β) (m n : Nat) (b : β)
    (hnm : n ≤ m) (hm : m ≤ xs.length) :
    insertAt n b xs = insertAt n b (xs.take m) ++ xs.drop m := by
  conv_lhs => rw [← List.take_append_drop m xs]
  rw [insertAt_append_of_le _ _ _ _ (by simp [Nat.le_min]; omega)]

theorem insertAt_split_right {β : Type} (xs : List β) (m n : Nat) (b : β)
    (hnm : m ≤ n) :
    insertAt n b xs = xs.take m ++ insertAt (n - m) b (xs.drop m) := by
  by_cases hm : m ≤ xs.length
  · conv_lhs => rw [← List.take_append_drop m xs]
    have heq : n = (xs.take m).length + (n - m) := by
      simp [Nat.min_eq_left hm]
      omega
    calc insertAt n b (xs.take m ++ xs.drop m)
        = insertAt ((xs.take m).length + (n - m)) b (xs.take m ++ xs.drop m) := by
          rw [← heq]
      _ = xs.take m ++ insertAt (n - m) b (xs.drop m) := insertAt_offset _ _ _ _
  · have h1 : xs.take m = xs := List.take_of_length_le (by omega)
    have h2 : xs.drop m = [] := List.drop_eq_nil_of_le (by omega)
    rw [h1, h2]
    simp [insertAt, List.take_of_length_le (show xs.length ≤ n by omega),
      List.drop_eq_nil_of_le (show xs.length ≤ n by omega)]

theorem nodeEls_canonical_form {α : Type} (xs : List α) (m : Nat) :
    nodeEls ⟨xs.map some ++ List.replicate m none, xs.length⟩ = xs := by
  have h : (xs.map some ++ List.replicate m none).take xs.length = xs.map some := by
    rw [show xs.length = (xs.map some).length by simp]
    exact List.take_left _ _
  unfold nodeEls
  simp only [h, optEls_map_some]

theorem canonical_mk {α : Type} (C : Nat) (xs : List α) (h : xs.length ≤ C) :
    canonical C ⟨xs.map some ++ List.replicate (C - xs.length) none, xs.length⟩ := by
  refine ⟨?_, h, ?_⟩
  · rw [nodeEls_canonical_form]
  · simp
    omega

theorem canonical_els_length {α : Type} {C : Nat} {nd : SNode α}
    (h : canonical C nd) : (nodeEls nd).length = nd.cnt := by
  obtain ⟨hs, hle, hlen⟩ := h
  have := congrArg List.length hs
  simp [hlen] at this
  omega

/-- A canonical node is determined by its element list and capacity. -/
theorem canonical_eta {α : Type} {C : Nat} {nd : SNode α} (h : canonical C nd) :
    nd = ⟨(nodeEls nd).map some ++ List.replicate (C - nd.cnt) none, (nodeEls nd).length⟩ := by
  cases nd with
  | mk slots cnt =>
      have h1 := h.1
      have h2 := canonical_els_length h
      simp at h1 h2 ⊢
      exact ⟨h1, h2.symm⟩

theorem chainEls_length_of_canonical {α : Type} {C : Nat} {l : List (SNode α)}
    (h : ∀ nd ∈ l, canonical C nd) : (chainEls l).length = cntSum l := by
  induction l with
  | nil => rfl
  | cons nd t ih =>
      simp only [chainEls_cons, cntSum_cons, List.length_append]
      rw [canonical_els_length (h nd (by simp)), ih (fun x hx => h x (by simp [hx]))]

/-- Decomposition of a list at an index in range. -/
theorem list_decomp {β : Type} (l : List β) (k : Nat) (d : β) (h : k < l.length) :
    l = l.take k ++ l.getD k d :: l.drop (k + 1) := by
  rw [List.getD_eq_getElem l d h]
  conv_lhs => rw [← List.take_append_drop k l]
  rw [List.drop_eq_getElem_cons h]

theorem getD_mem_of_lt {β : Type} (l : List β) (k : Nat) (d : β) (h : k < l.length) :
    l.getD k d ∈ l := by
  rw [List.getD_eq_getElem l d h]
  exact List.getElem_mem h

theorem shiftUp_zero {α : Type} (idx : Nat) (slots : List (Option α)) (fuel : Nat) :
    shiftUp idx 0 slots fuel = .ok (slots, fuel) := rfl

theorem shiftUp_succ_zero {α : Type} (idx n : Nat) (slots : List (Option α)) :
    shiftUp idx (n + 1) slots 0 = .error slots := rfl

theorem shiftUp_succ_succ {α : Type} (idx n : Nat) (slots : List (Option α)) (f : Nat) :
    shiftUp idx (n + 1) slots (f + 1) =
      shiftUp idx n
        ((slots.set (idx + n + 1) (slots.getD (idx + n + 1 - 1) none)).set
          (idx + n + 1 - 1) none) f := rfl

theorem shiftDown_zero {α : Type} (i : Nat) (slots : List (Option α)) :
    shiftDown i 0 slots = slots := rfl

theorem shiftDown_succ {α : Type} (i n : Nat) (slots : List (Option α)) :
    shiftDown i (n + 1) slots =
      shiftDown (i + 1) n ((slots.set i (slots.getD (i + 1) none)).set (i + 1) none) := rfl

theorem moveHalf_zero {α : Type} (half i : Nat) (src dst : List (Option α)) (fuel : Nat) :
    moveHalf half i 0 src dst fuel = .ok ((src, dst), fuel) := rfl

theorem moveHalf_succ_zero {α : Type} (half i n : Nat) (src dst : List (Option α)) :
    moveHalf half i (n + 1) src dst 0 = .error (src, dst) := rfl

theorem moveHalf_succ_succ {α : Type} (half i n : Nat) (src dst : List (Option α)) (f : Nat) :
    moveHalf half i (n + 1) src dst (f + 1) =
      moveHalf half (i + 1) n (src.set i none)
        (dst.set (i - half) (src.getD i none)) f := rfl

/-- What the rightward shift loop computes when it completes: the block
of live slots `xs` starting right after `pre` moves one slot towards
the tail, leaving the hole at the front; one unit of fuel per moved
element. -/
theorem shiftUp_ok_spec {α : Type} (xs : List α) :
    ∀ (pre post : List (Option α)) (fuel : Nat) (res : List (Option α) × Nat),
      shiftUp pre.length xs.length (pre ++ xs.map some ++ none :: post) fuel = .ok res →
        res.1 = pre ++ none :: xs.map some ++ post ∧ xs.length ≤ fuel ∧
          res.2 = fuel - xs.length := by
  induction xs using List.reverseRecOn with
  | nil =>
      intro pre post fuel res h
      simp only [List.length_nil] at h
      rw [shiftUp_zero] at h
      cases h
      simp
  | append_singleton ys y ih =>
      intro pre post fuel res h
      rw [show (ys ++ [y]).length = ys.length + 1 by simp] at h
      match fuel with
      | 0 => rw [shiftUp_succ_zero] at h; cases h
      | f + 1 =>
          rw [shiftUp_succ_succ] at h
          rw [show pre ++ (ys ++ [y]).map some ++ none :: post =
            (pre ++ ys.map some) ++ some y :: none :: post by simp] at h
          rw [show pre.length + ys.length + 1 - 1 = (pre ++ ys.map some).length + 0 by
            simp] at h
          rw [getD_offset] at h
          rw [show pre.length + ys.length + 1 = (pre ++ ys.map some).length + 1 by simp] at h
          rw [set_offset, set_offset] at h
          rw [show ((some y :: none :: post).set 1
              ((some y :: none :: post).getD 0 none)).set 0 none =
            none :: some y :: post by rfl] at h
          rw [show (pre ++ ys.map some) ++ none :: some y :: post =
            pre ++ ys.map some ++ none :: (some y :: post) by simp] at h
          obtain ⟨h1, h2, h3⟩ := ih pre (some y :: post) f res h
          refine ⟨?_, ?_, ?_⟩
          · rw [h1]
            simp
          · simp only [List.length_append, List.length_cons, List.length_nil]
            omega
          · rw [h3]
            simp only [List.length_append, List.length_cons, List.length_nil]
            omega

/-- What the leftward move loop computes: the live block `xs` right
after the hole moves one slot towards the head, leaving the hole at
the back. -/
theorem shiftDown_spec {α : Type} (xs : List α) :
    ∀ (pre post : List (Option α)),
      shiftDown pre.length xs.length (pre ++ none :: xs.map some ++ post) =
        pre ++ xs.map some ++ none :: post := by
  induction xs with
  | nil =>
      intro pre post
      simp only [List.length_nil, List.map_nil]
      rw [shiftDown_zero]
      simp
  | cons x ys ih =>
      intro pre post
      rw [show ((x :: ys) : List α).length = ys.length + 1 by simp]
      rw [shiftDown_succ]
      rw [show pre ++ none :: (x :: ys).map some ++ post =
        pre ++ (none :: some x :: (ys.map some ++ post)) by simp]
      rw [show pre.length + 1 = pre.length + 1 by rfl]
      rw [getD_offset]
      rw [show pre.length = pre.length + 0 by rfl, set_offset]
      rw [show pre.length + 0 + 1 = pre.length + 1 by rfl, set_offset]
      rw [show ((none :: some x :: (ys.map some ++ post)).set 0
          ((none :: some x :: (ys.map some ++ post)).getD 1 none)).set 1 none =
        some x :: none :: (ys.map some ++ post) by rfl]
      rw [show pre ++ some x :: none :: (ys.map some ++ post) =
        (pre ++ [some x]) ++ none :: ys.map some ++ post by simp]
      rw [show pre.length + 0 + 1 = (pre ++ [some x]).length by simp]
      rw [ih (pre ++ [some x]) post]
      simp

/-- What the half-move loop of the split path computes when it
completes: the live block `xs` is copied into the destination right
after `dpre`, the source slots it occupied become holes; one unit of
fuel per copied element. -/
theorem moveHalf_ok_spec {α : Type} (half : Nat) (xs : List α) :
    ∀ (spre spost dpre dpost : List (Option α)) (fuel : Nat)
      (res : (List (Option α) × List (Option α)) × Nat),
      spre.length = half + dpre.length →
      xs.length ≤ dpost.length →
      moveHalf half spre.length xs.length
          (spre ++ xs.map some ++ spost) (dpre ++ dpost) fuel = .ok res →
        res.1.1 = spre ++ List.replicate xs.length none ++ spost ∧
        res.1.2 = dpre ++ xs.map some ++ dpost.drop xs.length ∧
        xs.length ≤ fuel ∧ res.2 = fuel - xs.length := by
  induction xs with
  | nil =>
      intro spre spost dpre dpost fuel res hl hd h
      simp only [List.length_nil] at h
      rw [moveHalf_zero] at h
      cases h
      simp
  | cons x ys ih =>
      intro spre spost dpre dpost fuel res hl hd h
      match fuel with
      | 0 => rw [show ((x :: ys) : List α).length = ys.length + 1 by simp,
            moveHalf_succ_zero] at h; cases h
      | f + 1 =>
          match dpost with
          | [] => simp at hd
          | d :: drest =>
              rw [show ((x :: ys) : List α).length = ys.length + 1 by simp,
                moveHalf_succ_succ] at h
              rw [show spre ++ (x :: ys).map some ++ spost =
                spre ++ (some x :: (ys.map some ++ spost)) by simp] at h
              rw [show spre.length = spre.length + 0 by rfl] at h
              rw [getD_offset, set_offset] at h
              rw [show spre.length + 0 - half = dpre.length + 0 by omega] at h
              rw [set_offset] at h
              rw [show ((some x :: (ys.map some ++ spost)).set 0 none) =
                none :: (ys.map some ++ spost) by rfl] at h
              rw [show ((d :: drest).set 0 ((some x :: (ys.map some ++ spost)).getD 0 none)) =
                some x :: drest by rfl] at h
              rw [show spre ++ none :: (ys.map some ++ spost) =
                (spre ++ [none]) ++ ys.map some ++ spost by simp] at h
              rw [show dpre ++ some x :: drest = (dpre ++ [some x]) ++ drest by simp] at h
              rw [show spre.length + 0 + 1 = (spre ++ [none]).length by simp] at h
              have hl' : (spre ++ [none]).length = half + (dpre ++ [some x]).length := by
                simp
                omega
              have hd' : ys.length ≤ drest.length := by
                simp at hd
                omega
              obtain ⟨h1, h2, h3, h4⟩ := ih (spre ++ [none]) spost (dpre ++ [some x]) drest
                f res hl' hd' h
              refine ⟨?_, ?_, ?_, ?_⟩
              · rw [h1]
                simp [List.replicate_succ]
              · rw [h2]
                simp
              · simp only [List.length_cons]
                omega
              · rw [h4]
                simp only [List.length_cons]
                omega

theorem insertIdx_offset {β : Type} (l₁ l₂ : List β) (n : Nat) (b : β) :
    (l₁ ++ l₂).insertIdx (l₁.length + n) b = l₁ ++ l₂.insertIdx n b := by
  induction l₁ with
  | nil => simp
  | cons a t ih =>
      rw [show (a :: t).length + n = (t.length + n) + 1 by simp [Nat.add_right_comm]]
      rw [List.cons_append, List.insertIdx_succ_cons, ih, List.cons_append]

theorem WF_node {α : Type} {C : Nat} {s : ULs α} (h : WF C s) {k : Nat}
    (hk : k < s.nodes.length) :
    canonical C (s.nodes.getD k ⟨[], 0⟩) ∧ 1 ≤ (s.nodes.getD k ⟨[], 0⟩).cnt :=
  h.1 _ (getD_mem_of_lt _ _ _ hk)

theorem chainEls_decomp {α : Type} (l : List (SNode α)) (k : Nat)
    (hk : k < l.length) :
    chainEls l = chainEls (l.take k) ++ nodeEls (l.getD k ⟨[], 0⟩) ++
      chainEls (l.drop (k + 1)) := by
  conv_lhs => rw [list_decomp l k ⟨[], 0⟩ hk]
  simp

theorem cntSum_decomp {α : Type} (l : List (SNode α)) (k : Nat)
    (hk : k < l.length) :
    cntSum l = cntSum (l.take k) + (l.getD k ⟨[], 0⟩).cnt + cntSum (l.drop (k + 1)) := by
  conv_lhs => rw [list_decomp l k ⟨[], 0⟩ hk]
  simp [Nat.add_assoc]

theorem chainEls_set {α : Type} (l : List (SNode α)) (k : Nat) (b : SNode α)
    (hk : k < l.length) :
    chainEls (l.set k b) = chainEls (l.take k) ++ nodeEls b ++
      chainEls (l.drop (k + 1)) := by
  rw [List.set_eq_take_cons_drop b hk]
  simp

theorem cntSum_set {α : Type} (l : List (SNode α)) (k : Nat) (b : SNode α)
    (hk : k < l.length) :
    cntSum (l.set k b) = cntSum (l.take k) + b.cnt + cntSum (l.drop (k + 1)) := by
  rw [List.set_eq_take_cons_drop b hk]
  simp [Nat.add_assoc]

theorem chainEls_eraseIdx {α : Type} (l : List (SNode α)) (k : Nat) :
    chainEls (l.eraseIdx k) = chainEls (l.take k) ++ chainEls (l.drop (k + 1)) := by
  rw [List.eraseIdx_eq_take_drop_succ]
  simp

theorem cntSum_eraseIdx {α : Type} (l : List (SNode α)) (k : Nat) :
    cntSum (l.eraseIdx k) = cntSum (l.take k) + cntSum (l.drop (k + 1)) := by
  rw [List.eraseIdx_eq_take_drop_succ]
  simp

theorem chainEls_set_insertIdx {α : Type} (l : List (SNode α)) (k : Nat) (a b : SNode α)
    (hk : k < l.length) :
    (l.set k a).insertIdx (k + 1) b = l.take k ++ a :: b :: l.drop (k + 1) := by
  rw [List.set_eq_take_cons_drop a hk]
  rw [show k + 1 = (l.take k).length + 1 by rw [List.length_take_of_le (Nat.le_of_lt hk)]]
  rw [insertIdx_offset, List.insertIdx_succ_cons, List.insertIdx_zero]

/-- The chain part of the representation invariant restricted to a
prefix or suffix of the chain. -/
theorem WF_nodes_take {α : Type} {C : Nat} {s : ULs α} (h : WF C s) (k : Nat) :
    ∀ nd ∈ s.nodes.take k, canonical C nd ∧ 1 ≤ nd.cnt :=
  fun nd hnd => h.1 nd (List.mem_of_mem_take hnd)

theorem WF_nodes_drop {α : Type} {C : Nat} {s : ULs α} (h : WF C s) (k : Nat) :
    ∀ nd ∈ s.nodes.drop k, canonical C nd ∧ 1 ≤ nd.cnt :=
  fun nd hnd => h.1 nd (List.mem_of_mem_drop hnd)

/-- What the in-place branch of `insert` does when it completes: node
`k` (which had room) now carries its elements with `v` inserted at
`idx`, `size_` grew by one, and the returned iterator is `(k, idx)`. -/
theorem insert_inplace_spec {α : Type} (C : Nat) (s : ULs α) (k idx : Nat) (v : α)
    (fuel : Nat) (res : ULs α × (Nat × Nat) × Nat)
    (hWF : WF C s) (hk : k < s.nodes.length)
    (hidx : idx ≤ (s.nodes.getD k ⟨[], 0⟩).cnt)
    (hcnt : (s.nodes.getD k ⟨[], 0⟩).cnt < C)
    (h : insert C s (some (k, idx)) v fuel = .ok res) :
    res.1 = ⟨s.nodes.set k
        ⟨(insertAt idx v (nodeEls (s.nodes.getD k ⟨[], 0⟩))).map some ++
            List.replicate (C - ((s.nodes.getD k ⟨[], 0⟩).cnt + 1)) none,
          (s.nodes.getD k ⟨[], 0⟩).cnt + 1⟩, s.sz + 1⟩ ∧
      res.2.1 = (k, idx) := by
  have hc := (WF_node hWF hk).1
  set nd := s.nodes.getD k ⟨[], 0⟩ with hnd
  set xs := nodeEls nd with hxs
  have hlen : xs.length = nd.cnt := canonical_els_length hc
  have hshape : nd.slots = ((xs.take idx).map some) ++ (xs.drop idx).map some ++
      none :: List.replicate (C - nd.cnt - 1) none := by
    calc nd.slots = xs.map some ++ List.replicate (C - nd.cnt) none := hc.1
      _ = ((xs.take idx) ++ (xs.drop idx)).map some ++
          (none :: List.replicate (C - nd.cnt - 1) none) := by
            have hrep : none :: List.replicate (C - nd.cnt - 1) (none : Option α) =
                List.replicate (C - nd.cnt) none := by
              rw [← List.replicate_succ]
              congr 1
              omega
            rw [List.take_append_drop, hrep]
      _ = _ := by simp
  simp only [insert] at h
  rw [if_pos hcnt] at h
  rcases hsh : shiftUp idx (nd.cnt - idx) nd.slots fuel with sl | ⟨sl, f⟩
  · rw [← hnd, hsh] at h
    cases h
  · rw [← hnd, hsh] at h
    match f with
    | 0 => cases h
    | f + 1 =>
        have hpre : ((xs.take idx).map some).length = idx := by
          simp
          omega
        have hmid : (xs.drop idx).length = nd.cnt - idx := by
          simp
          omega
        have hsh' : shiftUp ((xs.take idx).map some).length (xs.drop idx).length
            (((xs.take idx).map some) ++ (xs.drop idx).map some ++
              none :: List.replicate (C - nd.cnt - 1) none) fuel = .ok (sl, f + 1) := by
          rw [hpre, hmid, ← hshape]
          exact hsh
        obtain ⟨h1, _, _⟩ := shiftUp_ok_spec (xs.drop idx) ((xs.take idx).map some)
          (List.replicate (C - nd.cnt - 1) none) fuel (sl, f + 1) hsh'
        simp only at h1
        have hset : sl.set idx (some v) =
            (insertAt idx v xs).map some ++ List.replicate (C - (nd.cnt + 1)) none := by
          rw [h1, List.append_assoc, List.cons_append]
          have hso := set_offset ((xs.take idx).map some)
            (none :: ((xs.drop idx).map some ++ List.replicate (C - nd.cnt - 1) none))
            0 (some v)
          rw [hpre, Nat.add_zero] at hso
          rw [hso]
          unfold insertAt
          simp [Nat.sub_sub]
        cases h
        constructor
        · simp only
          rw [hset]
        · rfl

theorem take_set_self {β : Type} (l : List β) (k : Nat) (b : β) :
    (l.set k b).take k = l.take k := by
  rw [List.set_take]
  apply List.set_eq_of_length_le
  simp

theorem drop_set_succ {β : Type} (l : List β) (k : Nat) (b : β) :
    (l.set k b).drop (k + 1) = l.drop (k + 1) := by
  rw [List.drop_set, if_pos (Nat.lt_succ_self k)]

theorem getD_set_self {β : Type} (l : List β) (k : Nat) (b d : β) (hk : k < l.length) :
    (l.set k b).getD k d = b := by
  rw [List.getD_eq_getElem _ _ (by simp [hk])]
  exact List.getElem_set_self (by simp [hk])

/-- Everything downstream reasoning needs about a completed in-place
insertion: the representation invariant is preserved, node `k` carries
the insertion, the observed sequence gains `v` at the cursor's logical
position, and the returned iterator is `(k, idx)`. -/
theorem insert_inplace_full {α : Type} (C : Nat) (s : ULs α) (k idx : Nat) (v : α)
    (fuel : Nat) (res : ULs α × (Nat × Nat) × Nat)
    (hWF : WF C s) (hk : k < s.nodes.length)
    (hidx : idx ≤ (s.nodes.getD k ⟨[], 0⟩).cnt)
    (hcnt : (s.nodes.getD k ⟨[], 0⟩).cnt < C)
    (h : insert C s (some (k, idx)) v fuel = .ok res) :
    WF C res.1 ∧
    res.1.nodes.length = s.nodes.length ∧
    (res.1.nodes.getD k ⟨[], 0⟩).cnt = (s.nodes.getD k ⟨[], 0⟩).cnt + 1 ∧
    nodeEls (res.1.nodes.getD k ⟨[], 0⟩) =
      insertAt idx v (nodeEls (s.nodes.getD k ⟨[], 0⟩)) ∧
    toEls res.1 = insertAt (cntsBefore s k + idx) v (toEls s) ∧
    cntsBefore res.1 k = cntsBefore s k ∧
    res.1.sz = s.sz + 1 ∧ res.2.1 = (k, idx) := by
  obtain ⟨hres, hcur⟩ := insert_inplace_spec C s k idx v fuel res hWF hk hidx hcnt h
  have hc := (WF_node hWF hk).1
  set nd := s.nodes.getD k ⟨[], 0⟩ with hnd
  set xs := nodeEls nd with hxs
  have hlen : xs.length = nd.cnt := canonical_els_length hc
  have hlen' : (insertAt idx v xs).length = nd.cnt + 1 := by
    rw [length_insertAt idx v xs (by omega)]
    omega
  set nd' : SNode α :=
    ⟨(insertAt idx v xs).map some ++ List.replicate (C - (nd.cnt + 1)) none,
      nd.cnt + 1⟩ with hnd'
  have hcanon' : canonical C nd' ∧ nodeEls nd' = insertAt idx v xs := by
    constructor
    · rw [hnd', ← hlen']
      exact canonical_mk C (insertAt idx v xs) (by rw [hlen']; omega)
    · rw [hnd', ← hlen']
      exact nodeEls_canonical_form _ _
  have hget : res.1.nodes.getD k ⟨[], 0⟩ = nd' := by
    rw [hres]
    exact getD_set_self _ _ _ _ hk
  have hszsum := hWF.2
  have hsum : cntSum s.nodes =
      cntSum (s.nodes.take k) + nd.cnt + cntSum (s.nodes.drop (k + 1)) := by
    rw [hnd]
    exact cntSum_decomp s.nodes k hk
  refine ⟨?_, ?_, ?_, ?_, ?_, ?_, ?_, ?_⟩
  · constructor
    · intro m hm
      rw [hres] at hm
      rcases List.mem_or_eq_of_mem_set hm with hmem | heq
      · exact hWF.1 m hmem
      · rw [heq]
        exact ⟨hcanon'.1, by rw [hnd']; simp⟩
    · rw [hres]
      show s.sz + 1 = cntSum (s.nodes.set k nd')
      have hcnt2 : nd'.cnt = nd.cnt + 1 := by rw [hnd']
      rw [cntSum_set _ _ _ hk, hcnt2, hszsum, hsum]
      omega
  · rw [hres]
    simp
  · rw [hget, hnd']
  · rw [hget, hcanon'.2]
  · rw [hres]
    show chainEls (s.nodes.set k nd') = _
    rw [chainEls_set _ _ _ hk, hcanon'.2]
    show _ = insertAt (cntsBefore s k + idx) v (chainEls s.nodes)
    rw [chainEls_decomp s.nodes k hk]
    have hA : (chainEls (s.nodes.take k)).length = cntsBefore s k :=
      chainEls_length_of_canonical (fun m hm => (WF_nodes_take hWF k m hm).1)
    rw [List.append_assoc, List.append_assoc]
    rw [show cntsBefore s k + idx = (chainEls (s.nodes.take k)).length + idx by
      rw [hA]]
    rw [insertAt_offset]
    rw [insertAt_append_of_le _ _ _ _ (by rw [← hxs] at *; omega)]
  · rw [hres]
    show cntSum ((s.nodes.set k nd').take k) = cntSum (s.nodes.take k)
    rw [take_set_self]
  · rw [hres]
  · exact hcur

theorem cntSum_take_last {α : Type} (l : List (SNode α)) (h1 : 1 ≤ l.length) :
    cntSum l = cntSum (l.take (l.length - 1)) + (l.getD (l.length - 1) ⟨[], 0⟩).cnt := by
  have hk : l.length - 1 < l.length := by omega
  rw [cntSum_decomp l (l.length - 1) hk]
  rw [show l.length - 1 + 1 = l.length by omega, List.drop_length]
  simp

theorem WF_sz_eq_length {α : Type} {C : Nat} {s : ULs α} (h : WF C s) :
    s.sz = (toEls s).length := by
  rw [h.2, toEls]
  exact (chainEls_length_of_canonical (fun nd hnd => (h.1 nd hnd).1)).symm

/-- A fresh one-element node as `push_back`'s two construction sites
produce it is canonical. -/
theorem fresh_node_canonical {α : Type} (C : Nat) (v : α) (hC : 1 ≤ C) :
    (List.replicate C (none : Option α)).set 0 (some v) =
      [v].map some ++ List.replicate (C - 1) none := by
  rw [show C = (C - 1) + 1 by omega, List.replicate_succ]
  simp

/-- What a completed `push_back` does: the element sequence gains `v`
at the back, `size_` grows by one, the invariant is preserved and the
chain is non-empty. -/
theorem push_back_ok_spec {α : Type} (C : Nat) (s : ULs α) (v : α) (fuel : Nat)
    (res : ULs α × Nat) (hWF : WF C s) (hC : 1 ≤ C)
    (h : push_back C s v fuel = .ok res) :
    WF C res.1 ∧ toEls res.1 = toEls s ++ [v] ∧ res.1.sz = s.sz + 1 ∧
      1 ≤ res.1.nodes.length := by
  obtain ⟨nodes, sz⟩ := s
  match nodes with
  | [] =>
      have hsz : sz = 0 := hWF.2
      simp only [push_back, List.isEmpty_nil, if_true] at h
      rw [if_pos (by simpa using hC)] at h
      match fuel with
      | 0 => cases h
      | f + 1 =>
          cases h
          refine ⟨⟨?_, ?_⟩, ?_, ?_, ?_⟩
          · intro m hm
            simp at hm
            rw [hm, fresh_node_canonical C v hC]
            exact ⟨canonical_mk C [v] (by simpa using hC), by simp⟩
          · simp [hsz]
          · show chainEls _ = chainEls [] ++ [v]
            simp [fresh_node_canonical C v hC, nodeEls, optEls]
          · rfl
          · simp
  | nd0 :: rest =>
      simp only [push_back, List.isEmpty_cons, Bool.false_eq_true, if_false] at h
      set l := nd0 :: rest with hl
      have hlpos : 1 ≤ l.length := by simp [hl]
      have hk : l.length - 1 < l.length := by omega
      set nd := l.getD (l.length - 1) ⟨[], 0⟩ with hnd
      have hcan : canonical C nd ∧ 1 ≤ nd.cnt := hWF.1 _ (getD_mem_of_lt _ _ _ hk)
      set xs := nodeEls nd with hxs
      have hxlen : xs.length = nd.cnt := canonical_els_length hcan.1
      by_cases hroom : nd.cnt < C
      · rw [if_pos hroom] at h
        match fuel with
        | 0 => cases h
        | f + 1 =>
            cases h
            have hslot : nd.slots.set nd.cnt (some v) =
                (xs ++ [v]).map some ++ List.replicate (C - (nd.cnt + 1)) none := by
              rw [hcan.1.1]
              have hso := set_offset (xs.map some)
                (List.replicate (C - nd.cnt) none) 0 (some v)
              rw [show (xs.map some).length + 0 = nd.cnt by simp; omega] at hso
              rw [hso]
              rw [show C - nd.cnt = (C - (nd.cnt + 1)) + 1 by omega, List.replicate_succ]
              simp
            have hcan' : canonical C ⟨nd.slots.set nd.cnt (some v), nd.cnt + 1⟩ ∧
                nodeEls ⟨nd.slots.set nd.cnt (some v), nd.cnt + 1⟩ = xs ++ [v] := by
              rw [hslot]
              have hxl : (xs ++ [v]).length = nd.cnt + 1 := by simp; omega
              constructor
              · rw [show nd.cnt + 1 = (xs ++ [v]).length from hxl.symm]
                exact canonical_mk C (xs ++ [v]) (by omega)
              · rw [show nd.cnt + 1 = (xs ++ [v]).length from hxl.symm]
                exact nodeEls_canonical_form _ _
            have hdecomp := chainEls_decomp l (l.length - 1) hk
            have hdrop : l.drop (l.length - 1 + 1) = [] := by
              rw [show l.length - 1 + 1 = l.length by omega]
              simp
            refine ⟨⟨?_, ?_⟩, ?_, ?_, ?_⟩
            · intro m hm
              simp only at hm
              rcases List.mem_or_eq_of_mem_set hm with hmem | heq
              · exact hWF.1 m hmem
              · rw [heq]
                exact ⟨hcan'.1, by simp⟩
            · show sz + 1 = cntSum (l.set (l.length - 1) ⟨nd.slots.set nd.cnt (some v), nd.cnt + 1⟩)
              rw [cntSum_set _ _ _ hk, hdrop]
              have hsz := hWF.2
              have hsum : cntSum l =
                  cntSum (l.take (l.length - 1)) + nd.cnt := by
                rw [hnd]
                exact cntSum_take_last l hlpos
              show sz + 1 = cntSum (l.take (l.length - 1)) + (nd.cnt + 1) + cntSum []
              simp only [cntSum_nil]
              simp only at hsz
              omega
            · show chainEls (l.set (l.length - 1) _) = chainEls l ++ [v]
              rw [chainEls_set _ _ _ hk, hcan'.2, hdecomp, hdrop]
              simp
              rw [hxs, hnd, List.getD_eq_getElem?_getD]
            · rfl
            · show 1 ≤ (l.set (l.length - 1) ⟨nd.slots.set nd.cnt (some v), nd.cnt + 1⟩).length
              simp only [List.length_set]
              exact hlpos
      · rw [if_neg hroom] at h
        match fuel with
        | 0 => cases h
        | f + 1 =>
            cases h
            refine ⟨⟨?_, ?_⟩, ?_, ?_, ?_⟩
            · intro m hm
              simp only at hm
              rcases List.mem_append.1 hm with hmem | heq
              · exact hWF.1 m hmem
              · simp at heq
                rw [heq, fresh_node_canonical C v hC]
                exact ⟨canonical_mk C [v] (by simpa using hC), by simp⟩
            · show sz + 1 = cntSum (l ++ [⟨(List.replicate C none).set 0 (some v), 1⟩])
              rw [cntSum_append]
              have hsz := hWF.2
              simp only at hsz ⊢
              simp [hsz]
            · show chainEls (l ++ _) = chainEls l ++ [v]
              rw [chainEls_append]
              simp [fresh_node_canonical C v hC, nodeEls, optEls]
            · rfl
            · simp

theorem insertNLoop_zero {α : Type} (C : Nat) (cur : Option (Nat × Nat)) (v : α)
    (s : ULs α) (ret : Option (Nat × Nat)) (fuel : Nat) :
    insertNLoop C cur v 0 s ret fuel = .ok (s, ret, fuel) := rfl

theorem insertNLoop_succ {α : Type} (C : Nat) (cur : Option (Nat × Nat)) (v : α)
    (n : Nat) (s : ULs α) (ret : Option (Nat × Nat)) (fuel : Nat) :
    insertNLoop C cur v (n + 1) s ret fuel =
      match insert C s cur v fuel with
      | .error e => .error e
      | .ok (s1, it, f) => insertNLoop C cur v n s1 (some it) f := rfl

theorem insertAt_getElem_self {β : Type} (l : List β) (p : Nat) (v : β)
    (hp : p ≤ l.length) : (insertAt p v l)[p]? = some v := by
  unfold insertAt
  rw [List.getElem?_append_right (by simp [Nat.min_eq_left hp])]
  simp [Nat.min_eq_left hp]

theorem iterate_insertAt_length {β : Type} (l : List β) (p : Nat) (v : β)
    (hp : p ≤ l.length) :
    ∀ n, ((insertAt p v)^[n] l).length = l.length + n := by
  intro n
  induction n with
  | zero => simp
  | succ n ih =>
      rw [Function.iterate_succ_apply', length_insertAt _ _ _ (by omega), ih]
      omega

theorem iterate_insertAt_getElem {β : Type} (l : List β) (p : Nat) (v : β) (n : Nat)
    (hp : p ≤ l.length) (hn : 1 ≤ n) :
    ((insertAt p v)^[n] l)[p]? = some v := by
  match n, hn with
  | n + 1, _ =>
      rw [Function.iterate_succ_apply']
      exact insertAt_getElem_self _ _ _
        (by rw [iterate_insertAt_length l p v hp n]; omega)

theorem iterate_insertAt_append {β : Type} (l : List β) (v : β) (n : Nat) :
    (insertAt l.length v)^[n] l = l ++ List.replicate n v := by
  induction n with
  | zero => simp
  | succ n ih =>
      rw [Function.iterate_succ_apply', ih]
      unfold insertAt
      rw [List.take_append_of_le_length (Nat.le_refl _),
        List.drop_append_of_le_length (Nat.le_refl _)]
      simp [List.replicate_succ]

/-- What `insert` at the end sentinel does when it completes: it
appends `v` (via `push_back`) and returns an iterator to the new last
slot, whose logical position is the old size. -/
theorem insert_end_spec {α : Type} (C : Nat) (s : ULs α) (v : α) (fuel : Nat)
    (res : ULs α × (Nat × Nat) × Nat) (hWF : WF C s) (hC : 1 ≤ C)
    (h : insert C s none v fuel = .ok res) :
    WF C res.1 ∧ toEls res.1 = toEls s ++ [v] ∧ res.1.sz = s.sz + 1 ∧
      cntsBefore res.1 res.2.1.1 + res.2.1.2 = s.sz ∧
      res.2.1.1 < res.1.nodes.length ∧
      res.2.1.2 < (res.1.nodes.getD res.2.1.1 ⟨[], 0⟩).cnt := by
  simp only [insert] at h
  rcases hpb : push_back C s v fuel with e | ⟨s1, f⟩
  · rw [hpb] at h
    cases h
  · rw [hpb] at h
    cases h
    have hWF1 : WF C s1 := (push_back_ok_spec C s v fuel (s1, f) hWF hC hpb).1
    have hEls : toEls s1 = toEls s ++ [v] :=
      (push_back_ok_spec C s v fuel (s1, f) hWF hC hpb).2.1
    have hsz : s1.sz = s.sz + 1 :=
      (push_back_ok_spec C s v fuel (s1, f) hWF hC hpb).2.2.1
    have hpos : 1 ≤ s1.nodes.length :=
      (push_back_ok_spec C s v fuel (s1, f) hWF hC hpb).2.2.2
    have hk : s1.nodes.length - 1 < s1.nodes.length := by omega
    have hlast := cntSum_take_last s1.nodes hpos
    have hcnt1 : 1 ≤ (s1.nodes.getD (s1.nodes.length - 1) ⟨[], 0⟩).cnt :=
      (WF_node hWF1 hk).2
    have hsum := hWF1.2
    refine ⟨hWF1, hEls, hsz, ?_, ?_, ?_⟩
    · show cntsBefore s1 (s1.nodes.length - 1) +
        ((s1.nodes.getD (s1.nodes.length - 1) ⟨[], 0⟩).cnt - 1) = s.sz
      show cntSum (s1.nodes.take (s1.nodes.length - 1)) + _ = s.sz
      omega
    · show s1.nodes.length - 1 < s1.nodes.length
      exact hk
    · show (s1.nodes.getD (s1.nodes.length - 1) ⟨[], 0⟩).cnt - 1 <
        (s1.nodes.getD (s1.nodes.length - 1) ⟨[], 0⟩).cnt
      omega

/-- The bulk-insert loop at the end sentinel: each round appends one
copy of `v`; the final iterator points at the last appended copy. -/
theorem insertN_end_aux {α : Type} (C : Nat) (v : α) (hC : 1 ≤ C) :
    ∀ (n : Nat) (s : ULs α) (ret : Option (Nat × Nat)) (fuel : Nat)
      (res : ULs α × Option (Nat × Nat) × Nat),
      WF C s →
      insertNLoop C none v n s ret fuel = .ok res →
      WF C res.1 ∧ toEls res.1 = toEls s ++ List.replicate n v ∧
        res.1.sz = s.sz + n ∧
        (n = 0 → res = (s, ret, fuel)) ∧
        (1 ≤ n → ∃ q, curPos res.1 res.2.1 = some q ∧ q + 1 = res.1.sz ∧
          (toEls res.1)[q]? = some v) := by
  intro n
  induction n with
  | zero =>
      intro s ret fuel res hWF h
      rw [insertNLoop_zero] at h
      cases h
      refine ⟨hWF, by simp, by simp, fun _ => rfl, fun hn => absurd hn (by omega)⟩
  | succ n ih =>
      intro s ret fuel res hWF h
      rw [insertNLoop_succ] at h
      rcases hins : insert C s none v fuel with e | ⟨s1, it, f⟩
      · rw [hins] at h
        cases h
      · rw [hins] at h
        obtain ⟨k1, i1⟩ := it
        obtain ⟨hWF1, hEls1, hsz1, hposi, hkv, hiv⟩ :=
          insert_end_spec C s v fuel (s1, (k1, i1), f) hWF hC hins
        have hpos1 : cntsBefore s1 k1 + i1 = s.sz := hposi
        have hsz1' : s1.sz = s.sz + 1 := hsz1
        have hEls1' : toEls s1 = toEls s ++ [v] := hEls1
        obtain ⟨hWFr, hElsr, hszr, hzero, hcur⟩ := ih s1 (some (k1, i1)) f res hWF1 h
        refine ⟨hWFr, ?_, by omega, fun hn0 => absurd hn0 (by omega), fun _ => ?_⟩
        · rw [hElsr, hEls1']
          simp [List.replicate_succ]
        · match n with
          | 0 =>
              have hres : res = (s1, some (k1, i1), f) := hzero rfl
              rw [hres]
              refine ⟨cntsBefore s1 k1 + i1, rfl, ?_, ?_⟩
              · show cntsBefore s1 k1 + i1 + 1 = s1.sz
                omega
              · show (toEls s1)[cntsBefore s1 k1 + i1]? = some v
                rw [hEls1', hpos1, WF_sz_eq_length hWF]
                rw [List.getElem?_append_right (Nat.le_refl _)]
                simp
          | n + 1 => exact hcur (by omega)

/-- The bulk-insert loop at an interior cursor whose node never
fills: each round inserts in place at the same node and slot, so the
stale cursor stays accurate. -/
theorem insertN_inplace_aux {α : Type} (C : Nat) (k idx : Nat) (v : α) :
    ∀ (n : Nat) (s : ULs α) (ret : Option (Nat × Nat)) (fuel : Nat)
      (res : ULs α × Option (Nat × Nat) × Nat),
      WF C s → k < s.nodes.length →
      idx ≤ (s.nodes.getD k ⟨[], 0⟩).cnt →
      (s.nodes.getD k ⟨[], 0⟩).cnt + n ≤ C →
      insertNLoop C (some (k, idx)) v n s ret fuel = .ok res →
      WF C res.1 ∧
      toEls res.1 = (insertAt (cntsBefore s k + idx) v)^[n] (toEls s) ∧
      res.1.sz = s.sz + n ∧
      res.1.nodes.length = s.nodes.length ∧
      cntsBefore res.1 k = cntsBefore s k ∧
      (res.1.nodes.getD k ⟨[], 0⟩).cnt = (s.nodes.getD k ⟨[], 0⟩).cnt + n ∧
      (n = 0 → res = (s, ret, fuel)) ∧
      (1 ≤ n → res.2.1 = some (k, idx)) := by
  intro n
  induction n with
  | zero =>
      intro s ret fuel res hWF hk hidx hcap h
      rw [insertNLoop_zero] at h
      cases h
      exact ⟨hWF, by simp, by simp, rfl, rfl, by simp, fun _ => rfl,
        fun hn => absurd hn (by omega)⟩
  | succ n ih =>
      intro s ret fuel res hWF hk hidx hcap h
      rw [insertNLoop_succ] at h
      rcases hins : insert C s (some (k, idx)) v fuel with e | ⟨s1, it, f⟩
      · rw [hins] at h
        cases h
      · rw [hins] at h
        obtain ⟨hWF1, hlen1, hcnt1, _, hEls1, hcb1, hsz1, hit⟩ :=
          insert_inplace_full C s k idx v fuel (s1, it, f) hWF hk hidx (by omega) hins
        have hit' : it = (k, idx) := hit
        have hWF1' : WF C s1 := hWF1
        have hlen1' : s1.nodes.length = s.nodes.length := hlen1
        have hcnt1' : (s1.nodes.getD k ⟨[], 0⟩).cnt = (s.nodes.getD k ⟨[], 0⟩).cnt + 1 :=
          hcnt1
        have hEls1' : toEls s1 = insertAt (cntsBefore s k + idx) v (toEls s) := hEls1
        have hcb1' : cntsBefore s1 k = cntsBefore s k := hcb1
        have hsz1' : s1.sz = s.sz + 1 := hsz1
        subst hit'
        obtain ⟨hWFr, hElsr, hszr, hlenr, hcbr, hcntr, hzero, hret⟩ :=
          ih s1 (some (k, idx)) f res hWF1' (by omega) (by omega) (by omega) h
        refine ⟨hWFr, ?_, by omega, by omega, by rw [hcbr, hcb1'], by omega,
          fun hn0 => absurd hn0 (by omega), fun _ => ?_⟩
        · rw [hElsr, hcb1', hEls1', ← Function.iterate_succ_apply]
        · match n with
          | 0 =>
              have hres : res = (s1, some (k, idx), f) := hzero rfl
              rw [hres]
          | n + 1 => exact hret (by omega)

/-- C7, amended.  For every well-formed list, count `n ≥ 1` and value,
`insert(position, n, value)` produces the element sequence of `n`
repeated single-element insertions of the value at the cursor's
logical position and returns a cursor to an inserted copy — provided
the cursor is the end sentinel, or points into a node whose count plus
`n` stays within the capacity `C` (so no split occurs during the bulk
insert; the counterexample shows the claim fails once a split
invalidates the reused cursor). -/
theorem C7_bulk_insert_no_split {α : Type} (C : Nat) (s : ULs α)
    (cur : Option (Nat × Nat)) (n : Nat) (v : α) (fuel : Nat)
    (res : ULs α × Option (Nat × Nat) × Nat)
    (hWF : WF C s) (hC : 1 ≤ C) (hn : 1 ≤ n)
    (hcur : cur = none ∨ ∃ k idx, cur = some (k, idx) ∧ k < s.nodes.length ∧
      idx < (s.nodes.getD k ⟨[], 0⟩).cnt ∧ (s.nodes.getD k ⟨[], 0⟩).cnt + n ≤ C)
    (h : insertN C s cur n v fuel = .ok res) :
    toEls res.1 = (insertAt ((curPos s cur).getD s.sz) v)^[n] (toEls s) ∧
      ∃ q, curPos res.1 res.2.1 = some q ∧ (toEls res.1)[q]? = some v := by
  rcases hcur with hnone | ⟨k, idx, hceq, hk, hidx, hcap⟩
  · subst hnone
    obtain ⟨hWFr, hElsr, hszr, _, hcurr⟩ :=
      insertN_end_aux C v hC n s none fuel res hWF h
    constructor
    · rw [hElsr]
      show toEls s ++ List.replicate n v = (insertAt s.sz v)^[n] (toEls s)
      rw [WF_sz_eq_length hWF]
      exact (iterate_insertAt_append (toEls s) v n).symm
    · obtain ⟨q, hq1, _, hq3⟩ := hcurr hn
      exact ⟨q, hq1, hq3⟩
  · subst hceq
    obtain ⟨hWFr, hElsr, hszr, hlenr, hcbr, hcntr, _, hretr⟩ :=
      insertN_inplace_aux C k idx v n s none fuel res hWF hk (by omega) hcap h
    have hple : cntsBefore s k + idx ≤ (toEls s).length := by
      rw [← WF_sz_eq_length hWF]
      have hd := cntSum_decomp s.nodes k hk
      have hsz := hWF.2
      show cntSum (s.nodes.take k) + idx ≤ s.sz
      omega
    refine ⟨?_, cntsBefore s k + idx, ?_, ?_⟩
    · rw [hElsr]
      rfl
    · rw [hretr hn]
      show some (cntsBefore res.1 k + idx) = some (cntsBefore s k + idx)
      rw [hcbr]
    · rw [hElsr]
      exact iterate_insertAt_getElem _ _ _ _ hple hn

/-- Witness for the amended C7 at a concrete no-split bulk insert:
capacity 4, one node holding 1, 2, two copies of 9 inserted at the
front. -/
theorem C7_bulk_insert_no_split_witness :
    toEls (⟨[⟨[some 9, some 9, some 1, some 2], 4⟩], 4⟩ : ULs Nat) =
      (insertAt ((curPos (⟨[⟨[some 1, some 2, none, none], 2⟩], 2⟩ : ULs Nat)
          (some (0, 0))).getD 2) 9)^[2]
        (toEls (⟨[⟨[some 1, some 2, none, none], 2⟩], 2⟩ : ULs Nat)) ∧
    ∃ q, curPos (⟨[⟨[some 9, some 9, some 1, some 2], 4⟩], 4⟩ : ULs Nat)
        (some (0, 0)) = some q ∧
      (toEls (⟨[⟨[some 9, some 9, some 1, some 2], 4⟩], 4⟩ : ULs Nat))[q]? = some 9 :=
  C7_bulk_insert_no_split 4 ⟨[⟨[some 1, some 2, none, none], 2⟩], 2⟩
    (some (0, 0)) 2 9 9
    (⟨[⟨[some 9, some 9, some 1, some 2], 4⟩], 4⟩, some (0, 0), 2)
    (by decide) (by decide) (by decide)
    (Or.inr ⟨0, 0, rfl, by decide, by decide, by decide⟩)
    (by decide)

theorem canonical_take {α : Type} {C : Nat} {nd : SNode α} (h : canonical C nd) :
    nd.slots.take nd.cnt = (nodeEls nd).map some := by
  rw [h.1, ← canonical_els_length h,
    show (nodeEls nd).length = ((nodeEls nd).map some).length by simp]
  exact List.take_left _ _

theorem visited_of_canonical {α : Type} {C : Nat} :
    ∀ l : List (SNode α), (∀ nd ∈ l, canonical C nd) →
      visited l = (chainEls l).map some := by
  intro l
  induction l with
  | nil => intro _; rfl
  | cons nd t ih =>
      intro h
      show nd.slots.take nd.cnt ++ visited t = _
      rw [canonical_take (h nd (by simp)), ih (fun m hm => h m (by simp [hm]))]
      simp

theorem eqLoop_map_some {α : Type} [DecidableEq α] :
    ∀ (A B : List α), A.length = B.length →
      (eqLoop (A.map some) (B.map some) = true ↔ A = B) := by
  intro A
  induction A with
  | nil =>
      intro B hB
      match B with
      | [] => simp [eqLoop]
      | b :: bs => simp at hB
  | cons a as ih =>
      intro B hB
      match B with
      | [] => simp at hB
      | b :: bs =>
          show (decide (some a = some b) && eqLoop (as.map some) (bs.map some)) = true ↔ _
          rw [Bool.and_eq_true, decide_eq_true_iff]
          rw [ih bs (by simp at hB; omega)]
          simp

/-- C8.  `operator==` returns true exactly when the two containers
have the same size and pairwise-equal elements in order (for canonical
states, where the iterator walk dereferences exactly the live
elements), and `operator!=` returns the negation of `operator==` on
the same pair. -/
theorem C8_eq_iff {α : Type} [DecidableEq α] (C : Nat) (s t : ULs α)
    (hs : WF C s) (ht : WF C t) :
    (ulEq s t = true ↔ (s.sz = t.sz ∧ toEls s = toEls t)) ∧
      ulNe s t = !ulEq s t := by
  refine ⟨?_, rfl⟩
  unfold ulEq
  by_cases hsz : s.sz = t.sz
  · rw [if_neg (not_not_intro hsz)]
    rw [visited_of_canonical _ (fun nd h => (hs.1 nd h).1),
      visited_of_canonical _ (fun nd h => (ht.1 nd h).1)]
    have hlen : (toEls s).length = (toEls t).length := by
      rw [← WF_sz_eq_length hs, ← WF_sz_eq_length ht]
      exact hsz
    constructor
    · intro h
      exact ⟨hsz, (eqLoop_map_some _ _ hlen).1 h⟩
    · intro h
      exact (eqLoop_map_some _ _ hlen).2 h.2
  · rw [if_pos hsz]
    simp [hsz]

/-- Witness for C8 at two concrete one-element containers. -/
theorem C8_eq_iff_witness :
    (ulEq (⟨[⟨[some 1, none], 1⟩], 1⟩ : ULs Nat) ⟨[⟨[some 1, none], 1⟩], 1⟩ = true ↔
      ((⟨[⟨[some 1, none], 1⟩], 1⟩ : ULs Nat).sz = (⟨[⟨[some 1, none], 1⟩], 1⟩ : ULs Nat).sz ∧
        toEls (⟨[⟨[some 1, none], 1⟩], 1⟩ : ULs Nat) = toEls ⟨[⟨[some 1, none], 1⟩], 1⟩)) ∧
    ulNe (⟨[⟨[some 1, none], 1⟩], 1⟩ : ULs Nat) ⟨[⟨[some 1, none], 1⟩], 1⟩ =
      !ulEq (⟨[⟨[some 1, none], 1⟩], 1⟩ : ULs Nat) ⟨[⟨[some 1, none], 1⟩], 1⟩ :=
  C8_eq_iff 2 ⟨[⟨[some 1, none], 1⟩], 1⟩ ⟨[⟨[some 1, none], 1⟩], 1⟩
    (by decide) (by decide)

/-- A completed shift-and-construct on a canonical slot array: the gap
opened at `idx` and filled with `v` realises the insertion. -/
theorem shiftUp_construct {α : Type} (C : Nat) (xs : List α) (idx : Nat) (v : α)
    (fuel f' : Nat) (sl : List (Option α))
    (hidx : idx ≤ xs.length) (hlt : xs.length < C)
    (h : shiftUp idx (xs.length - idx)
        (xs.map some ++ List.replicate (C - xs.length) none) fuel = .ok (sl, f' + 1)) :
    sl.set idx (some v) =
      (insertAt idx v xs).map some ++ List.replicate (C - (xs.length + 1)) none := by
  have hrep : (none : Option α) :: List.replicate (C - xs.length - 1) none =
      List.replicate (C - xs.length) none := by
    rw [← List.replicate_succ]
    congr 1
    omega
  have hshape : xs.map some ++ List.replicate (C - xs.length) none =
      ((xs.take idx).map some) ++ (xs.drop idx).map some ++
        none :: List.replicate (C - xs.length - 1) none := by
    calc xs.map some ++ List.replicate (C - xs.length) none
        = ((xs.take idx) ++ (xs.drop idx)).map some ++
            (none :: List.replicate (C - xs.length - 1) none) := by
          rw [List.take_append_drop, hrep]
      _ = _ := by simp
  have hpre : ((xs.take idx).map some).length = idx := by
    simp
    omega
  have hmid : (xs.drop idx).length = xs.length - idx := by simp
  have h' : shiftUp ((xs.take idx).map some).length (xs.drop idx).length
      (((xs.take idx).map some) ++ (xs.drop idx).map some ++
        none :: List.replicate (C - xs.length - 1) none) fuel = .ok (sl, f' + 1) := by
    rw [hpre, hmid, ← hshape]
    exact h
  obtain ⟨h1, _, _⟩ := shiftUp_ok_spec (xs.drop idx) ((xs.take idx).map some)
    (List.replicate (C - xs.length - 1) none) fuel (sl, f' + 1) h'
  simp only at h1
  rw [h1, List.append_assoc, List.cons_append]
  have hso := set_offset ((xs.take idx).map some)
    (none :: ((xs.drop idx).map some ++ List.replicate (C - xs.length - 1) none))
    0 (some v)
  rw [hpre, Nat.add_zero] at hso
  rw [hso]
  unfold insertAt
  simp [Nat.sub_sub]

/-- Shape of the container after the split path commits: node `k`
replaced by the two halves, everything else untouched, the sequence
gaining `v` inside the erstwhile node `k`. -/
theorem split_state_spec {α : Type} (C : Nat) (s : ULs α) (k : Nat) (v : α) (p : Nat)
    (old' new' : SNode α)
    (hWF : WF C s) (hk : k < s.nodes.length)
    (hco : canonical C old') (ho1 : 1 ≤ old'.cnt)
    (hcn : canonical C new') (hn1 : 1 ≤ new'.cnt)
    (hcnt : old'.cnt + new'.cnt = (s.nodes.getD k ⟨[], 0⟩).cnt + 1)
    (hels : nodeEls old' ++ nodeEls new' =
      insertAt p v (nodeEls (s.nodes.getD k ⟨[], 0⟩)))
    (hple : p ≤ (nodeEls (s.nodes.getD k ⟨[], 0⟩)).length) :
    WF C ⟨(s.nodes.set k old').insertIdx (k + 1) new', s.sz + 1⟩ ∧
    toEls ⟨(s.nodes.set k old').insertIdx (k + 1) new', s.sz + 1⟩ =
      insertAt (cntsBefore s k + p) v (toEls s) ∧
    ((s.nodes.set k old').insertIdx (k + 1) new').length = s.nodes.length + 1 ∧
    ((s.nodes.set k old').insertIdx (k + 1) new').take k = s.nodes.take k ∧
    ((s.nodes.set k old').insertIdx (k + 1) new').drop (k + 2) = s.nodes.drop (k + 1) ∧
    ((s.nodes.set k old').insertIdx (k + 1) new').getD k ⟨[], 0⟩ = old' ∧
    ((s.nodes.set k old').insertIdx (k + 1) new').getD (k + 1) ⟨[], 0⟩ = new' := by
  have hform := chainEls_set_insertIdx s.nodes k old' new' hk
  have htk : (s.nodes.take k).length = k := List.length_take_of_le (Nat.le_of_lt hk)
  have hsumdec := cntSum_decomp s.nodes k hk
  have hszsum := hWF.2
  refine ⟨⟨?_, ?_⟩, ?_, ?_, ?_, ?_, ?_, ?_⟩
  · intro m hm
    rw [hform] at hm
    rcases List.mem_append.1 hm with hmem | hmem
    · exact hWF.1 m (List.mem_of_mem_take hmem)
    · rcases hmem with _ | ⟨_, hmem⟩
      · exact ⟨hco, ho1⟩
      · rcases hmem with _ | ⟨_, hmem⟩
        · exact ⟨hcn, hn1⟩
        · exact hWF.1 m (List.mem_of_mem_drop hmem)
  · show s.sz + 1 = cntSum ((s.nodes.set k old').insertIdx (k + 1) new')
    rw [hform]
    rw [show s.nodes.take k ++ old' :: new' :: s.nodes.drop (k + 1) =
      s.nodes.take k ++ (old' :: new' :: s.nodes.drop (k + 1)) from rfl]
    rw [cntSum_append, cntSum_cons, cntSum_cons]
    omega
  · show chainEls ((s.nodes.set k old').insertIdx (k + 1) new') = _
    rw [hform]
    rw [show s.nodes.take k ++ old' :: new' :: s.nodes.drop (k + 1) =
      s.nodes.take k ++ (old' :: new' :: s.nodes.drop (k + 1)) from rfl]
    rw [chainEls_append, chainEls_cons, chainEls_cons]
    show _ = insertAt (cntsBefore s k + p) v (chainEls s.nodes)
    rw [chainEls_decomp s.nodes k hk]
    have hA : (chainEls (s.nodes.take k)).length = cntsBefore s k :=
      chainEls_length_of_canonical (fun m hm => (WF_nodes_take hWF k m hm).1)
    have key := insertAt_offset (chainEls (s.nodes.take k))
      (nodeEls (s.nodes.getD k ⟨[], 0⟩) ++ chainEls (s.nodes.drop (k + 1))) p v
    rw [hA] at key
    rw [List.append_assoc]
    rw [key]
    rw [insertAt_append_of_le _ _ _ _ hple]
    rw [← hels]
    simp
  · rw [hform]
    simp
    omega
  · rw [hform]
    have := List.take_left (s.nodes.take k) (old' :: new' :: s.nodes.drop (k + 1))
    rw [htk] at this
    exact this
  · rw [hform]
    have := @List.drop_append _ (s.nodes.take k)
      (old' :: new' :: s.nodes.drop (k + 1)) 2
    rw [htk] at this
    rw [this]
    rfl
  · rw [hform]
    have := getD_offset (s.nodes.take k) (old' :: new' :: s.nodes.drop (k + 1)) 0 (⟨[], 0⟩ : SNode α)
    rw [htk, show k + 0 = k from rfl] at this
    rw [this]
    rfl
  · rw [hform]
    have := getD_offset (s.nodes.take k) (old' :: new' :: s.nodes.drop (k + 1)) 1 (⟨[], 0⟩ : SNode α)
    rw [htk] at this
    rw [this]
    rfl

/-- C5.  Inserting at a cursor into a full node (`count = C`) splits
the node: the elements at indices `[C/2, C)` move into a fresh node
spliced immediately after it (the chain before the node and after it
is untouched, which is what the `prev`/`next`/`tail` updates amount
to), the insertion lands in the new node at `idx - C/2` when
`idx > C/2` and in the old node at `idx` otherwise, and the element
sequence equals the old sequence with the value inserted at the
cursor's logical position. -/
theorem C5_insert_split {α : Type} (C : Nat) (s : ULs α) (k idx : Nat) (v : α)
    (fuel : Nat) (res : ULs α × (Nat × Nat) × Nat)
    (hWF : WF C s) (hk : k < s.nodes.length)
    (hfull : (s.nodes.getD k ⟨[], 0⟩).cnt = C) (hidx : idx < C)
    (h : insert C s (some (k, idx)) v fuel = .ok res) :
    res.1.nodes.length = s.nodes.length + 1 ∧
    res.1.nodes.take k = s.nodes.take k ∧
    res.1.nodes.drop (k + 2) = s.nodes.drop (k + 1) ∧
    (if C / 2 < idx then
        nodeEls (res.1.nodes.getD k ⟨[], 0⟩) =
          (nodeEls (s.nodes.getD k ⟨[], 0⟩)).take (C / 2) ∧
        nodeEls (res.1.nodes.getD (k + 1) ⟨[], 0⟩) =
          insertAt (idx - C / 2) v ((nodeEls (s.nodes.getD k ⟨[], 0⟩)).drop (C / 2)) ∧
        res.2.1 = (k + 1, idx - C / 2)
      else
        nodeEls (res.1.nodes.getD k ⟨[], 0⟩) =
          insertAt idx v ((nodeEls (s.nodes.getD k ⟨[], 0⟩)).take (C / 2)) ∧
        nodeEls (res.1.nodes.getD (k + 1) ⟨[], 0⟩) =
          (nodeEls (s.nodes.getD k ⟨[], 0⟩)).drop (C / 2) ∧
        res.2.1 = (k, idx)) ∧
    toEls res.1 = insertAt (cntsBefore s k + idx) v (toEls s) ∧
    res.1.sz = s.sz + 1 ∧
    WF C res.1 := by
  have hcc := WF_node hWF hk
  set nd := s.nodes.getD k ⟨[], 0⟩ with hnd
  set xs := nodeEls nd with hxs
  have hxlen : xs.length = C := by rw [canonical_els_length hcc.1, hfull]
  have hC1 : 1 ≤ C := by
    have := hcc.2
    omega
  have hslots : nd.slots = xs.map some := by
    rw [hcc.1.1, ← hxs, hfull]
    simp
  simp only [insert] at h
  rw [← hnd] at h
  rw [if_neg (by omega)] at h
  rcases hmv : moveHalf (C / 2) (C / 2) (C - C / 2) nd.slots (List.replicate C none) fuel
    with e | ⟨⟨src, dst⟩, f⟩
  · rw [hmv] at h
    cases h
  · rw [hmv] at h
    dsimp only at h
    have htk2 : ((xs.take (C / 2)).map some).length = C / 2 := by
      simp
      omega
    have hdl : (xs.drop (C / 2)).length = C - C / 2 := by
      simp
      omega
    have hsl : nd.slots = ((xs.take (C / 2)).map some) ++ ((xs.drop (C / 2)).map some ++ []) := by
      rw [hslots]
      calc xs.map some = ((xs.take (C / 2)) ++ (xs.drop (C / 2))).map some := by
            rw [List.take_append_drop]
        _ = _ := by simp
    have hmv'' : moveHalf (C / 2) ((xs.take (C / 2)).map some).length
        (xs.drop (C / 2)).length
        (((xs.take (C / 2)).map some) ++ (xs.drop (C / 2)).map some ++ [])
        ([] ++ List.replicate C none) fuel = .ok ((src, dst), f) := by
      rw [htk2, hdl]
      rw [show ((xs.take (C / 2)).map some) ++ (xs.drop (C / 2)).map some ++ [] =
        nd.slots by rw [hsl]; simp]
      rw [show ([] : List (Option α)) ++ List.replicate C none =
        List.replicate C none from rfl]
      exact hmv
    obtain ⟨hsrc, hdst, _, _⟩ := moveHalf_ok_spec (C / 2) (xs.drop (C / 2))
      ((xs.take (C / 2)).map some) [] [] (List.replicate C none) fuel ((src, dst), f)
      (by rw [htk2]; simp) (by rw [hdl]; simp) hmv''
    simp only at hsrc hdst
    have hsrc' : src = (xs.take (C / 2)).map some ++ List.replicate (C - C / 2) none := by
      rw [hsrc, hdl]
      simp
    have hdst' : dst = (xs.drop (C / 2)).map some ++
        List.replicate (C - (C - C / 2)) none := by
      rw [hdst, hdl, List.drop_replicate]
      simp
    by_cases hpos : C / 2 < idx
    · rw [if_pos hpos] at h
      have hhalf1 : 1 ≤ C / 2 := by omega
      rcases hsh : shiftUp (idx - C / 2) ((C - C / 2) - (idx - C / 2)) dst f
        with e2 | ⟨sl, f2⟩
      · rw [hsh] at h
        cases h
      · rw [hsh] at h
        rcases f2 with _ | f2
        · cases h
        · have hsh' : shiftUp (idx - C / 2) ((xs.drop (C / 2)).length - (idx - C / 2))
              ((xs.drop (C / 2)).map some ++
                List.replicate (C - (xs.drop (C / 2)).length) none) f
              = .ok (sl, f2 + 1) := by
            rw [hdl, ← hdst']
            exact hsh
          have hset := shiftUp_construct C (xs.drop (C / 2)) (idx - C / 2) v f f2 sl
            (by rw [hdl]; omega) (by rw [hdl]; omega) hsh'
          cases h
          have hlen2 : (insertAt (idx - C / 2) v (xs.drop (C / 2))).length =
              (C - C / 2) + 1 := by
            rw [length_insertAt _ _ _ (by rw [hdl]; omega), hdl]
          have htl : (xs.take (C / 2)).length = C / 2 := by
            simp
            omega
          have hco1 := canonical_mk C (xs.take (C / 2)) (by simp; omega)
          rw [htl] at hco1
          have hco2 := nodeEls_canonical_form (xs.take (C / 2)) (C - C / 2)
          rw [htl] at hco2
          have hco : canonical C (⟨src, C / 2⟩ : SNode α) ∧
              nodeEls (⟨src, C / 2⟩ : SNode α) = xs.take (C / 2) := by
            rw [hsrc']
            exact ⟨hco1, hco2⟩
          have hcn1 := canonical_mk C (insertAt (idx - C / 2) v (xs.drop (C / 2)))
            (by rw [hlen2]; omega)
          rw [hlen2] at hcn1
          have hcn2 := nodeEls_canonical_form (insertAt (idx - C / 2) v (xs.drop (C / 2)))
            (C - (C - C / 2 + 1))
          rw [hlen2] at hcn2
          have hcn : canonical C (⟨sl.set (idx - C / 2) (some v), C - C / 2 + 1⟩ : SNode α) ∧
              nodeEls (⟨sl.set (idx - C / 2) (some v), C - C / 2 + 1⟩ : SNode α) =
                insertAt (idx - C / 2) v (xs.drop (C / 2)) := by
            rw [hset, hdl]
            exact ⟨hcn1, hcn2⟩
          obtain ⟨hWFr, hEls, hL, hT, hD, hG1, hG2⟩ := split_state_spec C s k v idx
            ⟨src, C / 2⟩ ⟨sl.set (idx - C / 2) (some v), C - C / 2 + 1⟩
            hWF hk hco.1 (by show 1 ≤ C / 2; omega) hcn.1 (by show 1 ≤ C - C / 2 + 1; omega)
            (by show C / 2 + (C - C / 2 + 1) = nd.cnt + 1; omega)
            (by rw [hco.2, hcn.2, ← hnd, ← hxs]
                exact (insertAt_split_right xs (C / 2) idx v (by omega)).symm)
            (by rw [← hnd, ← hxs]; omega)
          refine ⟨hL, hT, hD, ?_, hEls, rfl, hWFr⟩
          rw [if_pos hpos]
          exact ⟨by rw [hG1, hco.2], by rw [hG2, hcn.2], rfl⟩
    · rw [if_neg hpos] at h
      rcases hsh : shiftUp idx (C / 2 - idx) src f with e2 | ⟨sl, f2⟩
      · rw [hsh] at h
        cases h
      · rw [hsh] at h
        rcases f2 with _ | f2
        · cases h
        · have htl : (xs.take (C / 2)).length = C / 2 := by
            simp
            omega
          have hsh' : shiftUp idx ((xs.take (C / 2)).length - idx)
              ((xs.take (C / 2)).map some ++
                List.replicate (C - (xs.take (C / 2)).length) none) f
              = .ok (sl, f2 + 1) := by
            rw [htl, ← hsrc']
            exact hsh
          have hset := shiftUp_construct C (xs.take (C / 2)) idx v f f2 sl
            (by rw [htl]; omega) (by rw [htl]; omega) hsh'
          cases h
          have hlen2 : (insertAt idx v (xs.take (C / 2))).length = C / 2 + 1 := by
            rw [length_insertAt _ _ _ (by rw [htl]; omega), htl]
          have hco1 := canonical_mk C (insertAt idx v (xs.take (C / 2)))
            (by rw [hlen2]; omega)
          rw [hlen2] at hco1
          have hco2 := nodeEls_canonical_form (insertAt idx v (xs.take (C / 2)))
            (C - (C / 2 + 1))
          rw [hlen2] at hco2
          have hco : canonical C (⟨sl.set idx (some v), C / 2 + 1⟩ : SNode α) ∧
              nodeEls (⟨sl.set idx (some v), C / 2 + 1⟩ : SNode α) =
                insertAt idx v (xs.take (C / 2)) := by
            rw [hset, htl]
            exact ⟨hco1, hco2⟩
          have hcn1 := canonical_mk C (xs.drop (C / 2)) (by simp; omega)
          rw [hdl] at hcn1
          have hcn2 := nodeEls_canonical_form (xs.drop (C / 2)) (C - (C - C / 2))
          rw [hdl] at hcn2
          have hcn : canonical C (⟨dst, C - C / 2⟩ : SNode α) ∧
              nodeEls (⟨dst, C - C / 2⟩ : SNode α) = xs.drop (C / 2) := by
            rw [hdst']
            exact ⟨hcn1, hcn2⟩
          obtain ⟨hWFr, hEls, hL, hT, hD, hG1, hG2⟩ := split_state_spec C s k v idx
            ⟨sl.set idx (some v), C / 2 + 1⟩ ⟨dst, C - C / 2⟩
            hWF hk hco.1 (by show 1 ≤ C / 2 + 1; omega) hcn.1 (by show 1 ≤ C - C / 2; omega)
            (by show C / 2 + 1 + (C - C / 2) = nd.cnt + 1; omega)
            (by rw [hco.2, hcn.2, ← hnd, ← hxs]
                exact (insertAt_split_left xs (C / 2) idx v (by omega) (by omega)).symm)
            (by rw [← hnd, ← hxs]; omega)
          refine ⟨hL, hT, hD, ?_, hEls, rfl, hWFr⟩
          rw [if_neg hpos]
          exact ⟨by rw [hG1, hco.2], by rw [hG2, hcn.2], rfl⟩

/-- Witness for C5 at a concrete full node: capacity 4, node 1, 2, 3, 4,
insertion of 9 at slot 3 (upper half). -/
theorem C5_insert_split_witness :
    (⟨[⟨[some 1, some 2, none, none], 2⟩, ⟨[some 3, some 9, some 4, none], 3⟩], 5⟩ : ULs Nat).nodes.length = (⟨[⟨[some 1, some 2, some 3, some 4], 4⟩], 4⟩ : ULs Nat).nodes.length + 1 ∧
    (⟨[⟨[some 1, some 2, none, none], 2⟩, ⟨[some 3, some 9, some 4, none], 3⟩], 5⟩ : ULs Nat).nodes.take 0 = (⟨[⟨[some 1, some 2, some 3, some 4], 4⟩], 4⟩ : ULs Nat).nodes.take 0 ∧
    (⟨[⟨[some 1, some 2, none, none], 2⟩, ⟨[some 3, some 9, some 4, none], 3⟩], 5⟩ : ULs Nat).nodes.drop 2 = (⟨[⟨[some 1, some 2, some 3, some 4], 4⟩], 4⟩ : ULs Nat).nodes.drop 1 ∧
    (if 4 / 2 < 3 then
        nodeEls ((⟨[⟨[some 1, some 2, none, none], 2⟩, ⟨[some 3, some 9, some 4, none], 3⟩], 5⟩ : ULs Nat).nodes.getD 0 ⟨[], 0⟩) =
          (nodeEls ((⟨[⟨[some 1, some 2, some 3, some 4], 4⟩], 4⟩ : ULs Nat).nodes.getD 0 ⟨[], 0⟩)).take (4 / 2) ∧
        nodeEls ((⟨[⟨[some 1, some 2, none, none], 2⟩, ⟨[some 3, some 9, some 4, none], 3⟩], 5⟩ : ULs Nat).nodes.getD 1 ⟨[], 0⟩) =
          insertAt (3 - 4 / 2) 9 ((nodeEls ((⟨[⟨[some 1, some 2, some 3, some 4], 4⟩], 4⟩ : ULs Nat).nodes.getD 0 ⟨[], 0⟩)).drop (4 / 2)) ∧
        ((1, 1) : Nat × Nat) = (0 + 1, 3 - 4 / 2)
      else
        nodeEls ((⟨[⟨[some 1, some 2, none, none], 2⟩, ⟨[some 3, some 9, some 4, none], 3⟩], 5⟩ : ULs Nat).nodes.getD 0 ⟨[], 0⟩) =
          insertAt 3 9 ((nodeEls ((⟨[⟨[some 1, some 2, some 3, some 4], 4⟩], 4⟩ : ULs Nat).nodes.getD 0 ⟨[], 0⟩)).take (4 / 2)) ∧
        nodeEls ((⟨[⟨[some 1, some 2, none, none], 2⟩, ⟨[some 3, some 9, some 4, none], 3⟩], 5⟩ : ULs Nat).nodes.getD 1 ⟨[], 0⟩) =
          (nodeEls ((⟨[⟨[some 1, some 2, some 3, some 4], 4⟩], 4⟩ : ULs Nat).nodes.getD 0 ⟨[], 0⟩)).drop (4 / 2) ∧
        ((1, 1) : Nat × Nat) = (0, 3)) ∧
    toEls (⟨[⟨[some 1, some 2, none, none], 2⟩, ⟨[some 3, some 9, some 4, none], 3⟩], 5⟩ : ULs Nat) = insertAt (cntsBefore (⟨[⟨[some 1, some 2, some 3, some 4], 4⟩], 4⟩ : ULs Nat) 0 + 3) 9 (toEls (⟨[⟨[some 1, some 2, some 3, some 4], 4⟩], 4⟩ : ULs Nat)) ∧
    (⟨[⟨[some 1, some 2, none, none], 2⟩, ⟨[some 3, some 9, some 4, none], 3⟩], 5⟩ : ULs Nat).sz = (⟨[⟨[some 1, some 2, some 3, some 4], 4⟩], 4⟩ : ULs Nat).sz + 1 ∧
    WF 4 (⟨[⟨[some 1, some 2, none, none], 2⟩, ⟨[some 3, some 9, some 4, none], 3⟩], 5⟩ : ULs Nat) :=
  C5_insert_split 4 (⟨[⟨[some 1, some 2, some 3, some 4], 4⟩], 4⟩ : ULs Nat) 0 3 9 9
    ((⟨[⟨[some 1, some 2, none, none], 2⟩, ⟨[some 3, some 9, some 4, none], 3⟩], 5⟩ : ULs Nat), (1, 1), 5)
    (by decide) (by decide) (by decide) (by decide) (by decide)

theorem cntSum_len_le {α : Type} {C : Nat} :
    ∀ {l : List (SNode α)}, (∀ nd ∈ l, canonical C nd ∧ 1 ≤ nd.cnt) →
      l.length ≤ cntSum l := by
  intro l
  induction l with
  | nil => intro _; simp
  | cons nd t ih =>
      intro h
      have h1 := (h nd (by simp)).2
      have h2 := ih (fun m hm => h m (by simp [hm]))
      simp only [List.length_cons, cntSum_cons]
      omega

theorem getD_len_append {β : Type} (A B : List β) (d : β) :
    (A ++ B).getD A.length d = B.getD 0 d := by
  have := getD_offset A B 0 d
  rw [show A.length + 0 = A.length from rfl] at this
  exact this

/-- The destroy-and-close-the-gap step of `erase` on a canonical node:
the slot array afterwards is the canonical array of the element list
with position `idx` removed. -/
theorem erase_node_spec {α : Type} (C : Nat) (nd : SNode α) (idx : Nat)
    (hc : canonical C nd) (hidx : idx < nd.cnt) :
    shiftDown idx (nd.cnt - 1 - idx) (nd.slots.set idx none) =
      ((nodeEls nd).eraseIdx idx).map some ++ List.replicate (C - (nd.cnt - 1)) none := by
  set xs := nodeEls nd with hxs
  have hxlen : xs.length = nd.cnt := canonical_els_length hc
  have hcle : nd.cnt ≤ C := hc.2.1
  have hset0 : nd.slots.set idx none =
      ((xs.take idx).map some ++ none :: (xs.drop (idx + 1)).map some) ++
        List.replicate (C - nd.cnt) none := by
    rw [hc.1, ← hxs]
    rw [List.set_append, if_pos (by simp; omega)]
    congr 1
    rw [List.set_eq_take_cons_drop none (by simp; omega)]
    rw [List.map_take, List.map_drop]
  rw [hset0]
  have hpre : ((xs.take idx).map some).length = idx := by
    simp
    omega
  have hys : (xs.drop (idx + 1)).length = nd.cnt - 1 - idx := by
    simp
    omega
  have hkey := shiftDown_spec (xs.drop (idx + 1)) ((xs.take idx).map some)
    (List.replicate (C - nd.cnt) none)
  rw [hpre, hys] at hkey
  rw [hkey]
  rw [List.eraseIdx_eq_take_drop_succ]
  rw [show (none : Option α) :: List.replicate (C - nd.cnt) none =
    List.replicate (C - (nd.cnt - 1)) none by
      rw [← List.replicate_succ]
      congr 1
      omega]
  simp

/-- C4.  For every well-formed list and valid element cursor,
`erase(position)` removes exactly that element from the observed
sequence, decrements `size` by one, destroys the node exactly when its
count reaches zero (head-only, tail-only, sole-node and interior cases
alike), and returns a valid cursor to the element that logically
followed the erased one — which now sits at the erased logical
position — or the end sentinel when none follows. -/
theorem C4_erase_spec {α : Type} (C : Nat) (s : ULs α) (k idx : Nat)
    (hWF : WF C s) (hk : k < s.nodes.length)
    (hidx : idx < (s.nodes.getD k ⟨[], 0⟩).cnt) :
    toEls (erase s (some (k, idx))).1 =
      (toEls s).eraseIdx (cntsBefore s k + idx) ∧
    (erase s (some (k, idx))).1.sz = s.sz - 1 ∧
    (erase s (some (k, idx))).1.nodes.length =
      (if (s.nodes.getD k ⟨[], 0⟩).cnt = 1 then s.nodes.length - 1
        else s.nodes.length) ∧
    WF C (erase s (some (k, idx))).1 ∧
    validCur (erase s (some (k, idx))).1 (erase s (some (k, idx))).2 ∧
    curPos (erase s (some (k, idx))).1 (erase s (some (k, idx))).2 =
      (if cntsBefore s k + idx + 1 < s.sz then some (cntsBefore s k + idx)
        else none) := by
  have hcc := WF_node hWF hk
  set nd := s.nodes.getD k ⟨[], 0⟩ with hnd
  set xs := nodeEls nd with hxs
  have hxlen : xs.length = nd.cnt := canonical_els_length hcc.1
  have hcle : nd.cnt ≤ C := hcc.1.2.1
  have hc1 : 1 ≤ nd.cnt := hcc.2
  have hsl := erase_node_spec C nd idx hcc.1 hidx
  rw [← hxs] at hsl
  have hxl' : (xs.eraseIdx idx).length = nd.cnt - 1 := by
    rw [List.length_eraseIdx, if_pos (by omega)]
    omega
  have hcan1 := canonical_mk C (xs.eraseIdx idx) (by rw [hxl']; omega)
  rw [hxl'] at hcan1
  have hcan2 := nodeEls_canonical_form (xs.eraseIdx idx) (C - (nd.cnt - 1))
  rw [hxl'] at hcan2
  set nd' : SNode α := ⟨(xs.eraseIdx idx).map some ++
    List.replicate (C - (nd.cnt - 1)) none, nd.cnt - 1⟩ with hnd'
  set N1 := s.nodes.set k nd' with hN1
  have hnd'c : nd'.cnt = nd.cnt - 1 := rfl
  have hels1 : chainEls N1 = chainEls (s.nodes.take k) ++ (xs.eraseIdx idx) ++
      chainEls (s.nodes.drop (k + 1)) := by
    rw [hN1, chainEls_set _ _ _ hk, hcan2]
  have hcnt1 : cntSum N1 = cntSum (s.nodes.take k) + (nd.cnt - 1) +
      cntSum (s.nodes.drop (k + 1)) := by
    rw [hN1, cntSum_set _ _ _ hk, hnd'c]
  have hszdec : s.sz = cntsBefore s k + nd.cnt + cntSum (s.nodes.drop (k + 1)) := by
    rw [hWF.2, hnd]
    exact cntSum_decomp s.nodes k hk
  have hlenA : (chainEls (s.nodes.take k)).length = cntsBefore s k :=
    chainEls_length_of_canonical (fun m hm => (WF_nodes_take hWF k m hm).1)
  have hEls := chainEls_decomp s.nodes k hk
  have hErase : (toEls s).eraseIdx (cntsBefore s k + idx) =
      chainEls (s.nodes.take k) ++ (xs.eraseIdx idx) ++
        chainEls (s.nodes.drop (k + 1)) := by
    show (chainEls s.nodes).eraseIdx _ = _
    rw [hEls, List.append_assoc]
    have key := eraseIdx_offset (chainEls (s.nodes.take k))
      (xs ++ chainEls (s.nodes.drop (k + 1))) idx
    rw [hlenA] at key
    rw [key, eraseIdx_append_of_lt _ _ _ (by omega)]
    simp
  have hN2 : N1.eraseIdx k = s.nodes.take k ++ s.nodes.drop (k + 1) := by
    rw [hN1, List.eraseIdx_eq_take_drop_succ, take_set_self, drop_set_succ]
  have hN1len : N1.length = s.nodes.length := by
    rw [hN1]
    simp
  have hN2len : (N1.eraseIdx k).length = s.nodes.length - 1 := by
    rw [hN2]
    simp
    omega
  have hcbN1 : cntSum (N1.take k) = cntsBefore s k := by
    rw [hN1, take_set_self]
    rfl
  have htkA := List.take_left (s.nodes.take k) (s.nodes.drop (k + 1))
  rw [List.length_take_of_le (Nat.le_of_lt hk)] at htkA
  have hcbN2 : cntSum ((N1.eraseIdx k).take k) = cntsBefore s k := by
    rw [hN2, htkA]
    rfl
  have hWFA := WF_nodes_take hWF k
  have hWFD := WF_nodes_drop hWF (k + 1)
  have hN2WF : ∀ m ∈ N1.eraseIdx k, canonical C m ∧ 1 ≤ m.cnt := by
    intro m hm
    rw [hN2] at hm
    rcases List.mem_append.1 hm with hmem | hmem
    · exact hWFA m hmem
    · exact hWFD m hmem
  have hdle : (s.nodes.drop (k + 1)).length ≤ cntSum (s.nodes.drop (k + 1)) :=
    cntSum_len_le hWFD
  have hDcases : (s.nodes.drop (k + 1) = [] ∧ s.nodes.length ≤ k + 1) ∨
      (1 ≤ cntSum (s.nodes.drop (k + 1)) ∧ k + 1 < s.nodes.length) := by
    have hdl : (s.nodes.drop (k + 1)).length = s.nodes.length - (k + 1) := by simp
    by_cases hD : s.nodes.drop (k + 1) = []
    · left
      refine ⟨hD, ?_⟩
      have hl := congrArg List.length hD
      simp at hl
      omega
    · right
      have hlp : 0 < (s.nodes.drop (k + 1)).length := List.length_pos.2 hD
      exact ⟨Nat.le_trans hlp hdle, by omega⟩
  have hcbeq : cntsBefore s k = cntSum (s.nodes.take k) := rfl
  by_cases h1 : nd.cnt = 1
  · -- the erased slot was the node's only element: the node is unlinked
    have hidx0 : idx = 0 := by omega
    have hxe : xs.eraseIdx idx = [] := by
      have h0 : (xs.eraseIdx idx).length = 0 := by rw [hxl']; omega
      exact List.eq_nil_of_length_eq_zero h0
    by_cases hk0 : k = 0
    · -- head node emptied
      rw [hk0] at hN2 hN2len hN2WF
      have herase : erase s (some (k, idx)) =
          (⟨N1.eraseIdx 0, s.sz - 1⟩,
            if 0 < (N1.eraseIdx 0).length then some (0, 0) else none) := by
        simp only [erase]
        rw [← hnd, hsl, ← hnd', ← hN1]
        rw [if_neg (fun hc => hc.2.1 hk0), if_pos ⟨by omega, hk0⟩]
      rw [herase]
      have hcbk : cntsBefore s k = 0 := by rw [hk0]; rfl
      have hcnt2 : cntSum (N1.eraseIdx 0) =
          cntSum (s.nodes.take 0) + cntSum (s.nodes.drop (0 + 1)) := by
        rw [hN2]
        simp
      have hct0 : cntSum (s.nodes.take 0) = 0 := rfl
      have hsDk : cntSum (s.nodes.drop (k + 1)) = cntSum (s.nodes.drop (0 + 1)) := by
        rw [hk0]
      refine ⟨?_, rfl, ?_, ?_, ?_, ?_⟩
      · rw [hErase, hxe, hk0]
        show chainEls (N1.eraseIdx 0) = _
        rw [hN2]
        simp
      · rw [if_pos h1]
        exact hN2len
      · have hsz2 : s.sz - 1 = cntSum (N1.eraseIdx 0) := by omega
        exact ⟨hN2WF, hsz2⟩
      · rcases hDcases with ⟨hD, hle⟩ | ⟨hsD, hlt⟩
        · rw [if_neg (by rw [hN2len]; omega)]
          exact True.intro
        · have hcond : 0 < (N1.eraseIdx 0).length := by rw [hN2len]; omega
          rw [if_pos hcond]
          exact ⟨hcond, (hN2WF _ (getD_mem_of_lt _ _ _ hcond)).2⟩
      · rcases hDcases with ⟨hD, hle⟩ | ⟨hsD, hlt⟩
        · have hsD0 : cntSum (s.nodes.drop (k + 1)) = 0 := by rw [hD]; rfl
          rw [if_neg (by rw [hN2len]; omega), if_neg (by omega)]
          rfl
        · have hcond : 0 < (N1.eraseIdx 0).length := by rw [hN2len]; omega
          rw [if_pos hcond, if_pos (by omega), hidx0, hcbk]
          rfl
    · by_cases hklast : k = s.nodes.length - 1
      · -- tail node emptied
        have herase : erase s (some (k, idx)) = (⟨N1.eraseIdx k, s.sz - 1⟩, none) := by
          simp only [erase]
          rw [← hnd, hsl, ← hnd', ← hN1]
          rw [if_neg (fun hc => hc.2.2 hklast), if_neg (fun hc => hk0 hc.2),
            if_pos ⟨by omega, hklast⟩]
        rw [herase]
        have hD : s.nodes.drop (k + 1) = [] := List.drop_eq_nil_of_le (by omega)
        have hsD : cntSum (s.nodes.drop (k + 1)) = 0 := by rw [hD]; rfl
        refine ⟨?_, rfl, ?_, ?_, ?_, ?_⟩
        · rw [hErase, hxe]
          show chainEls (N1.eraseIdx k) = _
          rw [hN2]
          simp
        · rw [if_pos h1]
          exact hN2len
        · have hcnt2 : cntSum (N1.eraseIdx k) =
              cntSum (s.nodes.take k) + cntSum (s.nodes.drop (k + 1)) := by
            rw [hN2]
            simp
          have hsz2 : s.sz - 1 = cntSum (N1.eraseIdx k) := by omega
          exact ⟨hN2WF, hsz2⟩
        · exact True.intro
        · rw [if_neg (by omega)]
          rfl
      · -- interior node emptied
        have hk1 : k + 1 < s.nodes.length := by omega
        have herase : erase s (some (k, idx)) =
            (⟨N1.eraseIdx k, s.sz - 1⟩,
              if k < (N1.eraseIdx k).length then some (k, 0) else none) := by
          simp only [erase]
          rw [← hnd, hsl, ← hnd', ← hN1]
          rw [if_pos ⟨by omega, hk0, hklast⟩]
        rw [herase]
        rcases hDcases with ⟨hD, hle⟩ | ⟨hsD, hlt⟩
        · exact absurd hk1 (by omega)
        have hcond : k < (N1.eraseIdx k).length := by rw [hN2len]; omega
        refine ⟨?_, rfl, ?_, ?_, ?_, ?_⟩
        · rw [hErase, hxe]
          show chainEls (N1.eraseIdx k) = _
          rw [hN2]
          simp
        · rw [if_pos h1]
          exact hN2len
        · have hcnt2 : cntSum (N1.eraseIdx k) =
              cntSum (s.nodes.take k) + cntSum (s.nodes.drop (k + 1)) := by
            rw [hN2]
            simp
          have hsz2 : s.sz - 1 = cntSum (N1.eraseIdx k) := by omega
          exact ⟨hN2WF, hsz2⟩
        · rw [if_pos hcond]
          exact ⟨hcond, (hN2WF _ (getD_mem_of_lt _ _ _ hcond)).2⟩
        · rw [if_pos hcond, if_pos (by omega)]
          show some (cntSum ((N1.eraseIdx k).take k) + 0) = some (cntsBefore s k + idx)
          rw [hcbN2, hidx0]
  · -- the node keeps at least one element: erased in place
    have hne0 : ¬nd.cnt - 1 = 0 := by omega
    have hszpos : ¬s.sz - 1 = 0 := by omega
    have hsz2 : s.sz - 1 = cntSum N1 := by omega
    have hN1WF : ∀ m ∈ N1, canonical C m ∧ 1 ≤ m.cnt := by
      intro m hm
      rw [hN1] at hm
      rcases List.mem_or_eq_of_mem_set hm with hmem | heq
      · exact hWF.1 m hmem
      · rw [heq]
        exact ⟨hcan1, by rw [hnd'c]; omega⟩
    by_cases h5 : nd.cnt - 1 ≤ idx
    · -- last live slot erased: cursor moves to the next node
      have hidxe : idx = nd.cnt - 1 := by omega
      have herase : erase s (some (k, idx)) =
          (⟨N1, s.sz - 1⟩, if k + 1 < N1.length then some (k + 1, 0) else none) := by
        simp only [erase]
        rw [← hnd, hsl, ← hnd', ← hN1]
        rw [if_neg (fun hc => hne0 hc.1), if_neg (fun hc => hne0 hc.1),
          if_neg (fun hc => hne0 hc.1), if_neg hszpos, if_pos h5]
      rw [herase]
      have hcbk1 : cntSum (N1.take (k + 1)) = cntsBefore s k + (nd.cnt - 1) := by
        rw [hN1, List.set_eq_take_cons_drop _ hk,
          show k + 1 = (s.nodes.take k).length + 1 by
            rw [List.length_take_of_le (Nat.le_of_lt hk)],
          List.take_append]
        simp [cntsBefore, hnd'c]
      refine ⟨?_, rfl, ?_, ?_, ?_, ?_⟩
      · rw [hErase]
        exact hels1
      · rw [if_neg h1]
        exact hN1len
      · exact ⟨hN1WF, hsz2⟩
      · rcases hDcases with ⟨hD, hle⟩ | ⟨hsD, hlt⟩
        · rw [if_neg (by rw [hN1len]; omega)]
          exact True.intro
        · have hlN : k + 1 < N1.length := by rw [hN1len]; exact hlt
          rw [if_pos hlN]
          exact ⟨hlN, (hN1WF _ (getD_mem_of_lt _ _ _ hlN)).2⟩
      · rcases hDcases with ⟨hD, hle⟩ | ⟨hsD, hlt⟩
        · have hsD0 : cntSum (s.nodes.drop (k + 1)) = 0 := by rw [hD]; rfl
          rw [if_neg (by rw [hN1len]; omega), if_neg (by omega)]
          rfl
        · have hlN : k + 1 < N1.length := by rw [hN1len]; exact hlt
          rw [if_pos hlN, if_pos (by omega)]
          show some (cntSum (N1.take (k + 1)) + 0) = some (cntsBefore s k + idx)
          rw [hcbk1, hidxe]
          rfl
    · -- interior slot erased in place: cursor stays on the same node/slot
      have herase : erase s (some (k, idx)) = (⟨N1, s.sz - 1⟩, some (k, idx)) := by
        simp only [erase]
        rw [← hnd, hsl, ← hnd', ← hN1]
        rw [if_neg (fun hc => hne0 hc.1), if_neg (fun hc => hne0 hc.1),
          if_neg (fun hc => hne0 hc.1), if_neg hszpos, if_neg h5]
      rw [herase]
      have hlN : k < N1.length := by rw [hN1len]; exact hk
      have hgd : N1.getD k ⟨[], 0⟩ = nd' := by
        rw [hN1]
        exact getD_set_self _ _ _ _ hk
      refine ⟨?_, rfl, ?_, ?_, ?_, ?_⟩
      · rw [hErase]
        exact hels1
      · rw [if_neg h1]
        exact hN1len
      · exact ⟨hN1WF, hsz2⟩
      · exact ⟨hlN, by show idx < (N1.getD k ⟨[], 0⟩).cnt; rw [hgd, hnd'c]; omega⟩
      · rw [if_pos (by omega)]
        show some (cntSum (N1.take k) + idx) = some (cntsBefore s k + idx)
        rw [hcbN1]

/-- Witness for C4 at a concrete erase: capacity 4, one node holding
10, 20, 30, erasing the middle element. -/
theorem C4_erase_spec_witness :
    toEls (erase (⟨[⟨[some 10, some 20, some 30, none], 3⟩], 3⟩ : ULs Nat)
        (some (0, 1))).1 =
      (toEls (⟨[⟨[some 10, some 20, some 30, none], 3⟩], 3⟩ : ULs Nat)).eraseIdx
        (cntsBefore (⟨[⟨[some 10, some 20, some 30, none], 3⟩], 3⟩ : ULs Nat) 0 + 1) ∧
    (erase (⟨[⟨[some 10, some 20, some 30, none], 3⟩], 3⟩ : ULs Nat)
        (some (0, 1))).1.sz =
      (⟨[⟨[some 10, some 20, some 30, none], 3⟩], 3⟩ : ULs Nat).sz - 1 ∧
    (erase (⟨[⟨[some 10, some 20, some 30, none], 3⟩], 3⟩ : ULs Nat)
        (some (0, 1))).1.nodes.length =
      (if ((⟨[⟨[some 10, some 20, some 30, none], 3⟩], 3⟩ : ULs Nat).nodes.getD 0
            ⟨[], 0⟩).cnt = 1
        then (⟨[⟨[some 10, some 20, some 30, none], 3⟩], 3⟩ : ULs Nat).nodes.length - 1
        else (⟨[⟨[some 10, some 20, some 30, none], 3⟩], 3⟩ : ULs Nat).nodes.length) ∧
    WF 4 (erase (⟨[⟨[some 10, some 20, some 30, none], 3⟩], 3⟩ : ULs Nat)
        (some (0, 1))).1 ∧
    validCur (erase (⟨[⟨[some 10, some 20, some 30, none], 3⟩], 3⟩ : ULs Nat)
        (some (0, 1))).1
      (erase (⟨[⟨[some 10, some 20, some 30, none], 3⟩], 3⟩ : ULs Nat)
        (some (0, 1))).2 ∧
    curPos (erase (⟨[⟨[some 10, some 20, some 30, none], 3⟩], 3⟩ : ULs Nat)
        (some (0, 1))).1
      (erase (⟨[⟨[some 10, some 20, some 30, none], 3⟩], 3⟩ : ULs Nat)
        (some (0, 1))).2 =
      (if cntsBefore (⟨[⟨[some 10, some 20, some 30, none], 3⟩], 3⟩ : ULs Nat) 0 +
            1 + 1 <
          (⟨[⟨[some 10, some 20, some 30, none], 3⟩], 3⟩ : ULs Nat).sz
        then some
          (cntsBefore (⟨[⟨[some 10, some 20, some 30, none], 3⟩], 3⟩ : ULs Nat) 0 + 1)
        else none) :=
  C4_erase_spec 4 ⟨[⟨[some 10, some 20, some 30, none], 3⟩], 3⟩ 0 1
    (by decide) (by decide) (by decide)

/-- C1.  The claim states that `insert` gives the strong exception
guarantee: if an element copy construction throws, the container keeps
its prior observable state.  The source's in-place shift loop has no
rollback: with capacity 4 and one node holding 10, 20, inserting at the
front when the second copy construction throws escapes with the node's
slots mutated to 10, hole, 20 under an unchanged count — a different
observable state, refuting the claim. -/
theorem C1_insert_throw_leaves_changed_state :
    insert 4 (⟨[⟨[some 10, some 20, none, none], 2⟩], 2⟩ : ULs Nat)
        (some (0, 0)) 99 1 =
      .error ⟨[⟨[some 10, none, some 20, none], 2⟩], 2⟩ ∧
    (⟨[⟨[some 10, none, some 20, none], 2⟩], 2⟩ : ULs Nat) ≠
      ⟨[⟨[some 10, some 20, none, none], 2⟩], 2⟩ := by
  constructor
  · decide
  · decide

/-- C2.  The claim states that a throwing element construction during
`push_back` leaves the container exactly as before the call, with no
partially linked node.  On an empty container the source links a fresh
node as head and tail before constructing the value; when the copy
construction then throws, the empty node stays linked: the chain goes
from no nodes to one count-0 node, refuting the claim. -/
theorem C2_push_back_throw_keeps_linked_node :
    push_back 4 (⟨[], 0⟩ : ULs Nat) 7 0 =
      .error ⟨[⟨List.replicate 4 none, 0⟩], 0⟩ ∧
    (⟨[⟨List.replicate 4 none, 0⟩], 0⟩ : ULs Nat) ≠ ⟨[], 0⟩ := by
  constructor
  · decide
  · decide

/-- C3.  The claim states that after every public operation
`empty() ⟺ size() == 0 ⟺ head == tail == null`, and in particular that
erasing the last remaining element leaves `head == tail == null`.  In
the source's `erase`, the branch for an emptied head node moves
`head_` and returns without ever touching `tail_`; erasing the sole
element of a one-node container therefore frees the node and nulls
`head_` while `tail_` keeps the freed node's address: `size() == 0`
with `tail_ ≠ null`, refuting the claim. -/
theorem C3_erase_last_leaves_dangling_tail :
    (eraseP (⟨[(0, ⟨none, none, 1, [some 42, none]⟩)], some 0, some 0, 1⟩ : PC Nat)
        (some (0, 0))).1 = ⟨[], none, some 0, 0⟩ ∧
    ¬((⟨[], none, some 0, 0⟩ : PC Nat).tailP = none) ∧
    hget (⟨[], none, some 0, 0⟩ : PC Nat).heap 0 = none := by
  refine ⟨by decide, by decide, by decide⟩

/-- C6.  The claim states that after every public operation, a throw
during element construction included, every node reachable from the
chain has `1 ≤ count ≤ C`.  When `push_back` on an empty container
links a fresh node and the element's copy construction then throws,
the chain retains that node with `count = 0`, refuting the claim. -/
theorem C6_throw_retains_empty_node :
    push_back 3 (⟨[], 0⟩ : ULs Nat) 5 0 =
      .error ⟨[⟨List.replicate 3 none, 0⟩], 0⟩ ∧
    ¬(∀ nd ∈ (⟨[⟨List.replicate 3 none, 0⟩], 0⟩ : ULs Nat).nodes, 1 ≤ nd.cnt) := by
  constructor
  · decide
  · decide

/-- C7, counterexample.  The claim states that
`insert(position, n, value)` always produces the element sequence of
`n` repeated logical insertions at the cursor's position.  The source
re-inserts at the same, unrefreshed cursor; once the first insertion
splits the full target node the stale cursor indexes past the
shrunken node's count, and the second insertion constructs past the
live prefix, leaving a hole under `count`.  With capacity 4, one full
node 1, 2, 3, 4 and a cursor at slot 3, two logical insertions of 9
give 1, 2, 3, 9, 9, 4, while the source's loop yields an iteration
sequence of 1, 2, hole, 3, 9, 4 (the 9 constructed beyond the live
prefix is not even visited) — the claim fails. -/
theorem C7_cex_bulk_insert_after_split :
    (insertN 4 (⟨[⟨[some 1, some 2, some 3, some 4], 4⟩], 4⟩ : ULs Nat)
        (some (0, 3)) 2 9 99).map (fun r => toEls r.1) = .ok [1, 2, 3, 9, 4] ∧
    insertAt 3 9 (insertAt 3 9 [1, 2, 3, 4]) = [1, 2, 3, 9, 9, 4] ∧
    ([1, 2, 3, 9, 4] : List Nat) ≠ [1, 2, 3, 9, 9, 4] := by
  refine ⟨by decide, by decide, by decide⟩

/-- C9.  Applying `operator--` to the end sentinel (null-node cursor)
is a no-op returning the end sentinel itself: the very first line of
the source's decrement returns `*this` when `node_` is null.  Hence it
never yields a cursor to any element (in particular not to the last
element of a non-empty list), and iterating the decrement any number
of times from the end sentinel — which is what reverse traversal from
`reverse_iterator(end())` does before each dereference — stays at the
end sentinel and never reaches an element. -/
theorem C9_dec_end_sentinel_noop {α : Type} (s : ULs α) (n : Nat) :
    dec s none = none ∧ (dec s)^[n] none = none ∧
      ∀ p : Nat × Nat, dec s none ≠ some p := by
  have h : ∀ m, (dec s)^[m] (none : Option (Nat × Nat)) = none := by
    intro m
    induction m with
    | zero => rfl
    | succ m ih => rw [Function.iterate_succ_apply', ih]; rfl
  exact ⟨rfl, h n, fun p hp => by simp [dec] at hp⟩

/-- C10.  `pop_back` and `pop_front` on an empty container are guarded
no-ops: both begin with `if (empty()) return;`, so the call returns
normally and the container is left completely unchanged. -/
theorem C10_pop_on_empty_noop {α : Type} (s : ULs α) (h : s.sz = 0) :
    pop_back s = s ∧ pop_front s = s := by
  constructor
  · unfold pop_back; rw [if_pos h]
  · unfold pop_front; rw [if_pos h]

/-- Witness for C10 at the concrete empty container. -/
theorem C10_pop_on_empty_noop_witness :
    pop_back (⟨[], 0⟩ : ULs Nat) = ⟨[], 0⟩ ∧
      pop_front (⟨[], 0⟩ : ULs Nat) = ⟨[], 0⟩ :=
  C10_pop_on_empty_noop (⟨[], 0⟩ : ULs Nat) rfl

end USpec
